import Mathlib

/-!
# A verification development for `timing` (src/timing.go)

The scheduler keeps a binary min-heap `q` of pending items (Go `container/heap` over the
`Queue` slice type), one armed item `min` held outside the heap, and a timer.  A control loop
(`start`) reacts to two kinds of events: an item arriving on the `stage` channel and the
expiry of the timer (`timer.C`).

Embedding conventions.
* A `*Item` is represented by the record it points to; distinct pointers are distinct values.
* The goroutine `start` is a step function over an explicit state `(q, min, timer)`; every
  iteration of `for { select { ... } }` consumes one event and yields the calls it issued.
* Wall-clock time is not modelled: a timer is described by what it was armed for.
* Loops of `container/heap` carry a fuel argument; the fuel supplied is shown sufficient.
* A run-time panic (`make` with a length above the capacity, `heap.Pop` on an empty queue)
  is the result `none`.
-/

namespace Timing

/-! ## Data model -/

/-- Modelled from the spec: the `Item` struct is declared outside src/timing.go.  The source
reads and writes the fields `Id` (a `uint32` obtained from `next`) and `When` (an integer
number of seconds, compared with `<` and `>`); the spec adds an opaque caller payload. -/
structure Item where
  Id : Nat
  When : Nat
  Data : Nat
deriving DecidableEq, Repr, Inhabited

/-- Modelled from the spec: the `Queue` type (a slice of `*Item` implementing
`heap.Interface`) is declared outside src/timing.go; the spec describes it as an array-backed
min-structure ordered by due time ascending. -/
abbrev Queue := List Item

namespace Queue

/-- The element at index `i` (Go `q[i]`); indices used by `container/heap` are in range. -/
def idx (q : Queue) (i : Nat) : Item := q.getD i default

/-- Modelled from the spec: `Len` is the slice length. -/
def Len (q : Queue) : Nat := q.length

/-- Modelled from the spec: `Less(i, j)` orders by due time ascending. -/
def Less (q : Queue) (i j : Nat) : Bool := decide ((q.idx i).When < (q.idx j).When)

/-- Modelled from the spec: `Swap(i, j)` exchanges two slots. -/
def Swap (q : Queue) (i j : Nat) : Queue := (q.set i (q.idx j)).set j (q.idx i)

/-- Modelled from the spec: `Push(x)` appends at the end of the slice. -/
def Push (q : Queue) (x : Item) : Queue := q ++ [x]

/-- Modelled from the spec: `Pop()` removes and returns the last slot; `none` stands for the
index panic on an empty slice. -/
def Pop (q : Queue) : Option (Item × Queue) :=
  match q.getLast? with
  | none => none
  | some x => some (x, q.dropLast)

end Queue

/-! ## Go `container/heap` -/

namespace heap

/-- The loop of `heap.up`: `i := (j-1)/2; if i == j || !h.Less(j, i) break; Swap; j = i`. -/
def upLoop : Nat → Queue → Nat → Queue
  | 0, h, _ => h
  | fuel + 1, h, j =>
    let i := (j - 1) / 2
    if i = j ∨ h.Less j i = false then h
    else upLoop fuel (h.Swap i j) i

/-- Go `heap.up(h, j)`: every swap strictly lowers `j`, so `j` iterations suffice. -/
def up (h : Queue) (j : Nat) : Queue := upLoop j h j

/-- The loop of `heap.down`: pick the smaller child `j` of `i` below `n`, stop when there is
none or when it is not less than `i`, else swap and continue from `j`. -/
def downLoop : Nat → Queue → Nat → Nat → Queue
  | 0, h, _, _ => h
  | fuel + 1, h, i, n =>
    let j1 := 2 * i + 1
    if n ≤ j1 then h
    else
      let j := if j1 + 1 < n ∧ h.Less (j1 + 1) j1 = true then j1 + 1 else j1
      if h.Less j i = false then h
      else downLoop fuel (h.Swap i j) j n

/-- Go `heap.down(h, i0, n)` (its boolean result is unused by `Init` and `Pop`): every swap
strictly raises `i`, which stays below `n`, so `n - i0` iterations suffice. -/
def down (h : Queue) (i0 n : Nat) : Queue := downLoop (n - i0) h i0 n

/-- The loop of `heap.Init`, `for i := n/2 - 1; i >= 0; i--`, with `k = i + 1`. -/
def InitLoop (n : Nat) : Nat → Queue → Queue
  | 0, h => h
  | k + 1, h => InitLoop n k (down h k n)

/-- Go `heap.Init(h)`. -/
def Init (h : Queue) : Queue := InitLoop h.Len (h.Len / 2) h

/-- Go `heap.Push(h, x)`: `h.Push(x); up(h, h.Len()-1)`. -/
def Push (h : Queue) (x : Item) : Queue :=
  let h1 := h.Push x
  up h1 (h1.Len - 1)

/-- Go `heap.Pop(h)`: `n := h.Len() - 1; h.Swap(0, n); down(h, 0, n); return h.Pop()`.
On an empty queue `Swap(0, -1)` panics, which is `none` here. -/
def Pop (h : Queue) : Option (Item × Queue) :=
  if h.Len = 0 then none
  else
    let n := h.Len - 1
    (down (h.Swap 0 n) 0 n).Pop

end heap

/-! ## Hooks, timer and the control loop -/

/-- An invocation of one of the three package-level handlers with one item. -/
inductive Call where
  | PersistFunc (item : Item)
  | RemoveFunc (item : Item)
  | RemindFunc (item : Item)
deriving DecidableEq, Repr

/-- What a timer was last armed for: the 24-hour sentinel, or the due time of an item
(`time.Unix(int64(min.When), 0).Sub(time.Now())`). -/
inductive Timer where
  | sentinel
  | until (w : Nat)
deriving DecidableEq, Repr

/-- What one iteration of the loop issues, in order: an inline handler call, a goroutine
started with `go` together with the calls its body makes in sequence, or `timer.Reset`. -/
inductive Effect where
  | call (c : Call)
  | go (body : List Call)
  | reset (t : Timer)
deriving DecidableEq, Repr

/-- The two inputs of the `select` statement. -/
inductive Event where
  | stage (item : Item)
  | timerC
deriving DecidableEq, Repr

/-- The local variables of `start`. -/
structure State where
  q : Queue
  min : Option Item
  timer : Timer
deriving DecidableEq, Repr

/-- The body of the goroutine of lines 91-94: `RemoveFunc(item); RemindFunc(item)`. -/
def fireBody (item : Item) : List Call := [Call.RemoveFunc item, Call.RemindFunc item]

/-- Lines 82-87: `min = item; PersistFunc(min); timer.Reset(until min.When)`. -/
def arm (q : Queue) (item : Item) : State × List Effect :=
  ({ q := q, min := some item, timer := Timer.until item.When },
   [Effect.call (Call.PersistFunc item), Effect.reset (Timer.until item.When)])

/-- Lines 72-87, `case item := <-stage`. -/
def onStage (s : State) (item : Item) : State × List Effect :=
  match s.min with
  | none => arm s.q item
  | some m =>
    if item.When < m.When then arm (heap.Push s.q m) item
    else if item.When > m.When then ({ s with q := heap.Push s.q item }, [])
    else arm s.q item

/-- Lines 89-108, `case <-timer.C`.  The last branch is the panic of `heap.Pop` on an empty
queue, which the guard `q.Len() == 0` excludes. -/
def onTimer (s : State) : State × List Effect :=
  let fired : List Effect :=
    match s.min with
    | some m => [Effect.go (fireBody m)]
    | none => []
  if s.q.Len = 0 then
    ({ s with min := none, timer := Timer.sentinel }, fired ++ [Effect.reset Timer.sentinel])
  else
    match heap.Pop s.q with
    | some (m, q1) =>
      ({ q := q1, min := some m, timer := Timer.until m.When },
       fired ++ [Effect.reset (Timer.until m.When)])
    | none => (s, fired)

/-- One iteration of `for { select { ... } }`. -/
def step (s : State) : Event → State × List Effect
  | Event.stage item => onStage s item
  | Event.timerC => onTimer s

/-- The loop on a finite sequence of events: final state and everything issued, in order. -/
def run (s : State) : List Event → State × List Effect
  | [] => (s, [])
  | e :: es =>
    let r := step s e
    let r1 := run r.1 es
    (r1.1, r.2 ++ r1.2)

/-- Lines 58-69: the state of `start(q)` when it closes `inited`.  The last branch is the
panic of `heap.Pop` on an empty queue, which the guard `len(q) > 0` excludes. -/
def start (q : Queue) : State :=
  let q0 := heap.Init q
  if 0 < q0.length then
    match heap.Pop q0 with
    | some (m, q1) => { q := q1, min := some m, timer := Timer.until m.When }
    | none => { q := q0, min := none, timer := Timer.sentinel }
  else { q := q0, min := none, timer := Timer.sentinel }

/-- Lines 30-35: `atomic.AddUint32(&id, 1)` on the counter value `id`; the new value is both
stored and returned. -/
def next (id : Nat) : Nat := (id + 1) % 2 ^ 32

/-- Line 39, `make(Queue, len, cap)`: a slice of `len` empty slots; `none` is the run-time
panic of `make` when `len` exceeds `cap`. -/
def make (len cap : Nat) : Option Queue :=
  if len ≤ cap then some (List.replicate len default) else none

/-- The loop of `Init` (lines 40-44) at index `i` with counter value `id`, on the queue `q`
made at line 39: `item.Id = next(); q[i] = item; PersistFunc(item)`.  It yields the counter
afterwards, the queue and the `PersistFunc` calls made. -/
def InitLoop : Nat → Nat → List Item → Queue → Nat × Queue × List Effect
  | id, _, [], q => (id, q, [])
  | id, i, item :: rest, q =>
    let item1 := { item with Id := next id }
    let r := InitLoop (next id) (i + 1) rest (q.set i item1)
    (r.1, r.2.1, Effect.call (Call.PersistFunc item1) :: r.2.2)

/-- Lines 38-46, `Init(items...)` from counter value `id`: the counter afterwards, the state
in which the loop signals readiness, and the calls made before that.  With more than 1024
items `make(Queue, len(items), 1024)` panics before anything else happens: `none`. -/
def Init (id : Nat) (items : List Item) : Option (Nat × State × List Effect) :=
  match make items.length 1024 with
  | none => none
  | some q =>
    let r := InitLoop id 0 items q
    some (r.1, start r.2.1, r.2.2)

/-! ## Observations on what the loop issued -/

/-- Every handler invocation caused by a list of effects, goroutine bodies included. -/
def allCalls : List Effect → List Call
  | [] => []
  | Effect.call c :: es => c :: allCalls es
  | Effect.go body :: es => body ++ allCalls es
  | Effect.reset _ :: es => allCalls es

/-- The items handed to `RemindFunc`, in the order the loop dispatched them. -/
def reminds (es : List Effect) : List Item :=
  (allCalls es).filterMap fun c => match c with
    | Call.RemindFunc x => some x
    | _ => none

/-- The items handed to `RemoveFunc`, in the order the loop dispatched them. -/
def removes (es : List Effect) : List Item :=
  (allCalls es).filterMap fun c => match c with
    | Call.RemoveFunc x => some x
    | _ => none

/-- The items handed to `PersistFunc`, in order. -/
def persists (es : List Effect) : List Item :=
  (allCalls es).filterMap fun c => match c with
    | Call.PersistFunc x => some x
    | _ => none

/-- The items staged by a sequence of events. -/
def staged : List Event → List Item
  | [] => []
  | Event.stage x :: es => x :: staged es
  | Event.timerC :: es => staged es

/-- The items the loop still holds: the armed item, if any, and the pending ones. -/
def held (s : State) : List Item := s.min.toList ++ s.q

/-- The items given to `Init` or `Add` as they are once `item.Id = next()` has run on each,
in order, from counter value `id`. -/
def withIds : Nat → List Item → List Item
  | _, [] => []
  | id, item :: rest => { item with Id := next id } :: withIds (next id) rest

/-- Lines 49-56, `Add(items...)` from counter value `id`, once `inited` is closed: the counter
afterwards and the items sent on `stage`, in order, each with its `Id` written. -/
def Add : Nat → List Item → Nat × List Event
  | id, [] => (id, [])
  | id, item :: rest =>
    let item1 := { item with Id := next id }
    let r := Add (next id) rest
    (r.1, Event.stage item1 :: r.2)

/-- A call of one of the two public entry points. -/
inductive ApiCall where
  | Init (items : List Item)
  | Add (items : List Item)
deriving DecidableEq, Repr

/-- The number of times a series of calls invokes `next()`: once per item handed over, and
not at all in an `Init` that panics at `make`. -/
def ApiCall.total : List ApiCall → Nat
  | [] => 0
  | ApiCall.Init items :: cs =>
    (if items.length ≤ 1024 then items.length else 0) + ApiCall.total cs
  | ApiCall.Add items :: cs => items.length + ApiCall.total cs

/-- The identifiers returned by `next()` over a sequential series of calls starting from
counter value `id`, in issuance order: each is the value written to the `Id` of an item (for
`Init`, read off the item handed to `PersistFunc` right after).  An `Init` that panics has
not called `next()`; the series goes on from the same counter if the caller recovers. -/
def issued : Nat → List ApiCall → List Nat
  | _, [] => []
  | id, ApiCall.Init items :: cs =>
    match Init id items with
    | some r => (persists r.2.2).map Item.Id ++ issued r.1 cs
    | none => issued id cs
  | id, ApiCall.Add items :: cs =>
    (staged (Add id items).2).map Item.Id ++ issued (Add id items).1 cs

/-- The item a handler invocation is made with. -/
def Call.item : Call → Item
  | Call.PersistFunc x => x
  | Call.RemoveFunc x => x
  | Call.RemindFunc x => x

/-- No insertion of the sequence arrives while an item with the same due time is armed. -/
def noTie : State → List Event → Bool
  | _, [] => true
  | s, Event.stage x :: es =>
    (match s.min with
      | some m => decide (x.When ≠ m.When)
      | none => true) && noTie (step s (Event.stage x)).1 es
  | s, Event.timerC :: es => noTie (step s Event.timerC).1 es

/-! ## Heap order -/

/-- Every slot `c < n` whose parent index is at least `k` is not below its parent. -/
def HeapFrom (k n : Nat) (h : Queue) : Prop :=
  ∀ c, c < n → k ≤ (c - 1) / 2 → (h.idx ((c - 1) / 2)).When ≤ (h.idx c).When

/-- The heap order of `container/heap` on the whole queue. -/
def IsHeap (h : Queue) : Prop :=
  ∀ c, c < h.length → (h.idx ((c - 1) / 2)).When ≤ (h.idx c).When

instance (h : Queue) : Decidable (IsHeap h) := by
  unfold IsHeap; infer_instance

/-- The armed item is due no later than any pending item. -/
def MinLe (s : State) : Prop :=
  ∀ m, s.min = some m → ∀ x ∈ s.q, m.When ≤ x.When

/-- The invariant of the loop: `q` is a heap, the armed item is due no later than anything
in it, and nothing is pending while no item is armed. -/
def Inv (s : State) : Prop :=
  IsHeap s.q ∧ MinLe s ∧ (s.min = none → s.q = [])

theorem Queue.length_Swap (h : Queue) (i j : Nat) : (h.Swap i j).length = h.length := by
  simp [Queue.Swap]

theorem Queue.idx_eq_getElem (h : Queue) (i : Nat) (hi : i < h.length) : h.idx i = h[i] := by
  simp [Queue.idx, List.getD_eq_getElem?_getD, List.getElem?_eq_getElem hi]

theorem Queue.idx_Swap (h : Queue) (i j k : Nat) (hi : i < h.length) (hj : j < h.length) :
    (h.Swap i j).idx k = if k = j then h.idx i else if k = i then h.idx j else h.idx k := by
  unfold Queue.Swap Queue.idx
  simp only [List.getD_eq_getElem?_getD, List.getElem?_set, List.length_set]
  by_cases hkj : k = j
  · subst hkj; simp [hj]
  · by_cases hki : k = i
    · subst hki; simp [hi, hkj, Ne.symm hkj]
    · simp [hkj, hki, Ne.symm hkj, Ne.symm hki]

/-! ## Slots and swaps -/

theorem count_set (l : Queue) (i : Nat) (x c : Item) (hi : i < l.length) :
    (l.set i x).count c + (if l.idx i = c then 1 else 0)
      = l.count c + (if x = c then 1 else 0) := by
  induction l generalizing i with
  | nil => simp at hi
  | cons a t ih =>
    cases i with
    | zero =>
      simp only [List.set_cons_zero, List.count_cons, Queue.idx, List.getD_cons_zero, beq_iff_eq]
      omega
    | succ i =>
      have hi2 : i < t.length := by simpa using hi
      have := ih i hi2
      have hi3 : i < List.length t := hi2
      simp only [List.set_cons_succ, List.count_cons, Queue.idx, List.getD_cons_succ] at this ⊢
      omega

theorem Queue.Swap_perm (h : Queue) (i j : Nat) (hi : i < h.length) (hj : j < h.length) :
    (h.Swap i j).Perm h := by
  rw [List.perm_iff_count]
  intro c
  by_cases hij : i = j
  · subst hij
    have h1 : h.Swap i i = h := by
      apply List.ext_getElem (by simp [Queue.length_Swap])
      intro n h1 h2
      have := Queue.idx_Swap h i i n hi hi
      rw [Queue.idx_eq_getElem _ _ h1] at this
      rw [this]
      split
      · next hn => subst hn; exact Queue.idx_eq_getElem _ _ hi
      · exact Queue.idx_eq_getElem _ _ h2
    rw [h1]
  · have e1 := count_set h i (h.idx j) c hi
    have hj2 : j < (h.set i (h.idx j)).length := by simpa using hj
    have e2 := count_set (h.set i (h.idx j)) j (h.idx i) c hj2
    have e3 : Queue.idx (h.set i (h.idx j)) j = h.idx j := by
      simp [Queue.idx, List.getD_eq_getElem?_getD, List.getElem?_set, hij]
    rw [e3] at e2
    unfold Queue.Swap
    omega

/-! ## `heap.down` -/

/-- The child that `heap.down` compares with slot `i`. -/
theorem child_choice (h : Queue) (i n : Nat) (hn : ¬ n ≤ 2 * i + 1) :
    ∃ j, (if 2 * i + 1 + 1 < n ∧ h.Less (2 * i + 1 + 1) (2 * i + 1) = true
            then 2 * i + 1 + 1 else 2 * i + 1) = j ∧
      (j = 2 * i + 1 ∨ j = 2 * i + 2) ∧ j < n ∧
      (h.idx j).When ≤ (h.idx (2 * i + 1)).When ∧
      (2 * i + 2 < n → (h.idx j).When ≤ (h.idx (2 * i + 2)).When) := by
  by_cases hc : 2 * i + 1 + 1 < n ∧ h.Less (2 * i + 1 + 1) (2 * i + 1) = true
  · refine ⟨2 * i + 1 + 1, by simp [hc], Or.inr rfl, hc.1, ?_, fun _ => le_refl _⟩
    have := hc.2
    simp only [Queue.Less, decide_eq_true_eq] at this
    exact Nat.le_of_lt this
  · refine ⟨2 * i + 1, by simp [hc], Or.inl rfl, by omega, le_refl _, ?_⟩
    intro h2
    have : ¬ h.Less (2 * i + 1 + 1) (2 * i + 1) = true := fun h3 => hc ⟨h2, h3⟩
    simp only [Queue.Less, decide_eq_true_eq] at this
    exact Nat.le_of_not_lt this

theorem downLoop_frame (f : Nat) : ∀ (h : Queue) (i n : Nat), n ≤ h.length →
    (heap.downLoop f h i n).length = h.length ∧ (heap.downLoop f h i n).Perm h ∧
      ∀ k, n ≤ k → (heap.downLoop f h i n).idx k = h.idx k := by
  induction f with
  | zero => intro h i n _; simp [heap.downLoop]
  | succ f ih =>
    intro h i n hn
    unfold heap.downLoop
    simp only []
    by_cases h1 : n ≤ 2 * i + 1
    · simp [h1]
    · obtain ⟨j, hj, hjc, hjn, -, -⟩ := child_choice h i n h1
      simp only [h1, if_false, hj]
      by_cases h2 : h.Less j i = false
      · simp [h2]
      · rw [if_neg h2]
        have hi : i < h.length := by omega
        have hjl : j < h.length := by omega
        obtain ⟨e1, e2, e3⟩ := ih (h.Swap i j) j n (by rw [Queue.length_Swap]; exact hn)
        refine ⟨by rw [e1, Queue.length_Swap], e2.trans (Queue.Swap_perm h i j hi hjl), ?_⟩
        intro k hk
        rw [e3 k hk, Queue.idx_Swap h i j k hi hjl]
        have : k ≠ j := by omega
        have : k ≠ i := by omega
        simp [*]

theorem downLoop_heap (f : Nat) : ∀ (h : Queue) (i i0 n : Nat), n ≤ h.length → n - i ≤ f →
    i0 ≤ i →
    (∀ c, c < n → i0 ≤ (c - 1) / 2 → (c - 1) / 2 ≠ i →
      (h.idx ((c - 1) / 2)).When ≤ (h.idx c).When) →
    (∀ c, c < n → (c - 1) / 2 = i → c ≠ i → i0 < i →
      (h.idx ((i - 1) / 2)).When ≤ (h.idx c).When) →
    HeapFrom i0 n (heap.downLoop f h i n) := by
  induction f with
  | zero =>
    intro h i i0 n _ hf _ ha _ c hc hp
    simp only [heap.downLoop]
    exact ha c hc hp (by omega)
  | succ f ih =>
    intro h i i0 n hn hf hi0 ha hb
    unfold heap.downLoop
    simp only []
    by_cases h1 : n ≤ 2 * i + 1
    · simp only [h1, if_true]
      intro c hc hp
      by_cases hpi : (c - 1) / 2 = i
      · have hc0 : c = 0 := by omega
        subst hc0; simp
      · exact ha c hc hp hpi
    · obtain ⟨j, hj, hjc, hjn, hj1, hj2⟩ := child_choice h i n h1
      simp only [h1, if_false, hj]
      by_cases h2 : h.Less j i = false
      · simp only [h2, if_true]
        simp only [Queue.Less, decide_eq_false_iff_not, not_lt] at h2
        intro c hc hp
        by_cases hpi : (c - 1) / 2 = i
        · rw [hpi]
          have hcc : c = 0 ∨ c = 2 * i + 1 ∨ c = 2 * i + 2 := by omega
          rcases hcc with hc0 | hc1 | hc2
          · have : i = 0 := by omega
            subst hc0; subst this; exact le_refl _
          · subst hc1; omega
          · subst hc2; have := hj2 hc; omega
        · exact ha c hc hp hpi
      · rw [if_neg h2]
        have h3 : (h.idx j).When < (h.idx i).When := by
          simpa [Queue.Less] using h2
        have hi : i < h.length := by omega
        have hjl : j < h.length := by omega
        have hpj : (j - 1) / 2 = i := by omega
        apply ih (h.Swap i j) j i0 n (by rw [Queue.length_Swap]; exact hn) (by omega) (by omega)
        · intro c hc hp hpn
          rw [Queue.idx_Swap h i j _ hi hjl, Queue.idx_Swap h i j _ hi hjl]
          by_cases hpi : (c - 1) / 2 = i
          · have hcc : c = 0 ∨ c = 2 * i + 1 ∨ c = 2 * i + 2 := by omega
            have hij : i ≠ j := by omega
            rw [hpi]
            simp only [hij, if_false, if_true]
            by_cases hcj : c = j
            · simp only [hcj, if_true]; omega
            · by_cases hci : c = i
              · simp only [hci, hij, if_false, if_true]; exact le_refl _
              · simp only [hcj, hci, if_false]
                rcases hcc with hc0 | hc1 | hc2
                · omega
                · subst hc1; exact hj1
                · subst hc2; exact hj2 hc
          · have hcj : c ≠ j := by omega
            simp only [hpn, hpi, hcj, if_false]
            by_cases hci : c = i
            · subst hci
              simp only [if_true]
              by_cases hc0 : c = 0
              · omega
              · exact hb j hjn hpj (by omega) (by omega)
            · simp only [hci, if_false]
              exact ha c hc hp hpi
        · intro c hc hp hcj _
          rw [Queue.idx_Swap h i j _ hi hjl, Queue.idx_Swap h i j _ hi hjl]
          have hij : i ≠ j := by omega
          have hci : c ≠ i := by omega
          simp only [hpj, hij, hcj, hci, if_false, if_true]
          have := ha c hc (by omega) (by omega)
          rw [hp] at this
          exact this

theorem downLoop_fuel (f : Nat) : ∀ (g : Nat) (h : Queue) (i n : Nat), n - i ≤ f → n - i ≤ g →
    heap.downLoop f h i n = heap.downLoop g h i n := by
  induction f with
  | zero =>
    intro g h i n hf _
    cases g with
    | zero => rfl
    | succ g =>
      unfold heap.downLoop
      simp only []
      rw [if_pos (by omega)]
  | succ f ih =>
    intro g h i n hf hg
    cases g with
    | zero =>
      unfold heap.downLoop
      simp only []
      rw [if_pos (by omega)]
    | succ g =>
      unfold heap.downLoop
      simp only []
      by_cases h1 : n ≤ 2 * i + 1
      · rw [if_pos h1, if_pos h1]
      · obtain ⟨j, hj, hjc, hjn, -, -⟩ := child_choice h i n h1
        rw [if_neg h1, if_neg h1, hj]
        by_cases h2 : h.Less j i = false
        · rw [if_pos h2, if_pos h2]
        · rw [if_neg h2, if_neg h2]
          exact ih g (h.Swap i j) j n (by omega) (by omega)

/-! ## `heap.up` -/

theorem upLoop_frame (f : Nat) : ∀ (h : Queue) (j : Nat), j < h.length →
    (heap.upLoop f h j).length = h.length ∧ (heap.upLoop f h j).Perm h := by
  induction f with
  | zero => intro h j _; simp [heap.upLoop]
  | succ f ih =>
    intro h j hj
    unfold heap.upLoop
    simp only []
    by_cases h1 : (j - 1) / 2 = j ∨ h.Less j ((j - 1) / 2) = false
    · rw [if_pos h1]; exact ⟨rfl, List.Perm.refl _⟩
    · rw [if_neg h1]
      have hi : (j - 1) / 2 < h.length := by omega
      obtain ⟨e1, e2⟩ := ih (h.Swap ((j - 1) / 2) j) ((j - 1) / 2)
        (by rw [Queue.length_Swap]; exact hi)
      exact ⟨by rw [e1, Queue.length_Swap], e2.trans (Queue.Swap_perm h _ j hi hj)⟩

theorem upLoop_fuel (f : Nat) : ∀ (g : Nat) (h : Queue) (j : Nat), j ≤ f → j ≤ g →
    heap.upLoop f h j = heap.upLoop g h j := by
  induction f with
  | zero =>
    intro g h j hf _
    cases g with
    | zero => rfl
    | succ g =>
      unfold heap.upLoop
      simp only []
      rw [if_pos (Or.inl (by omega))]
  | succ f ih =>
    intro g h j hf hg
    cases g with
    | zero =>
      unfold heap.upLoop
      simp only []
      rw [if_pos (Or.inl (by omega))]
    | succ g =>
      unfold heap.upLoop
      simp only []
      by_cases h1 : (j - 1) / 2 = j ∨ h.Less j ((j - 1) / 2) = false
      · rw [if_pos h1, if_pos h1]
      · rw [if_neg h1, if_neg h1]
        exact ih g _ _ (by omega) (by omega)

theorem upLoop_heap (f : Nat) : ∀ (h : Queue) (j : Nat), j < h.length → j ≤ f →
    (∀ c, c < h.length → c ≠ j → (h.idx ((c - 1) / 2)).When ≤ (h.idx c).When) →
    (∀ c, c < h.length → (c - 1) / 2 = j → c ≠ j →
      (h.idx ((j - 1) / 2)).When ≤ (h.idx c).When) →
    IsHeap (heap.upLoop f h j) := by
  induction f with
  | zero =>
    intro h j _ hf ha _ c hc
    simp only [heap.upLoop] at hc ⊢
    by_cases hcj : c = j
    · have : c = 0 := by omega
      subst this; exact le_refl _
    · exact ha c hc hcj
  | succ f ih =>
    intro h j hj hf ha hb
    unfold heap.upLoop
    simp only []
    by_cases h1 : (j - 1) / 2 = j ∨ h.Less j ((j - 1) / 2) = false
    · rw [if_pos h1]
      intro c hc
      by_cases hcj : c = j
      · subst hcj
        rcases h1 with h1 | h1
        · rw [h1]
        · simp only [Queue.Less, decide_eq_false_iff_not, not_lt] at h1
          exact h1
      · exact ha c hc hcj
    · rw [if_neg h1]
      have h2 : (j - 1) / 2 ≠ j := fun e => h1 (Or.inl e)
      have h3 : (h.idx j).When < (h.idx ((j - 1) / 2)).When := by
        have : ¬ h.Less j ((j - 1) / 2) = false := fun e => h1 (Or.inr e)
        simpa [Queue.Less] using this
      have hi : (j - 1) / 2 < h.length := by omega
      have hlen : (h.Swap ((j - 1) / 2) j).length = h.length := Queue.length_Swap _ _ _
      apply ih (h.Swap ((j - 1) / 2) j) ((j - 1) / 2) (by rw [hlen]; exact hi) (by omega)
      · intro c hc hci
        rw [hlen] at hc
        rw [Queue.idx_Swap h _ j _ hi hj, Queue.idx_Swap h _ j _ hi hj]
        by_cases hcj : c = j
        · subst hcj
          simp only [h2, if_false, if_true]
          omega
        · simp only [hcj, hci, if_false]
          by_cases hpj : (c - 1) / 2 = j
          · simp only [hpj, if_true]
            have := hb c hc hpj hcj
            omega
          · by_cases hpi : (c - 1) / 2 = (j - 1) / 2
            · simp only [hpi, h2, if_false, if_true]
              have := ha c hc hcj
              rw [hpi] at this
              omega
            · simp only [hpj, hpi, if_false]
              exact ha c hc hcj
      · intro c hc hp hci
        rw [hlen] at hc
        rw [Queue.idx_Swap h _ j _ hi hj, Queue.idx_Swap h _ j _ hi hj]
        have hii := ha ((j - 1) / 2) hi h2
        by_cases hcj : c = j
        · rw [hcj]
          simp only [if_true]
          by_cases hi0 : ((j - 1) / 2 - 1) / 2 = (j - 1) / 2
          · simp only [hi0, h2, if_false, if_true]; omega
          · have : ((j - 1) / 2 - 1) / 2 ≠ j := by omega
            simp only [this, hi0, if_false]; exact hii
        · simp only [hcj, hci, if_false]
          have hcc := ha c hc hcj
          rw [hp] at hcc
          by_cases hi0 : ((j - 1) / 2 - 1) / 2 = (j - 1) / 2
          · simp only [hi0, h2, if_false, if_true]; omega
          · have : ((j - 1) / 2 - 1) / 2 ≠ j := by omega
            simp only [this, hi0, if_false]; omega

/-! ## The operations of `container/heap` on a `Queue` -/

theorem IsHeap_iff_HeapFrom (h : Queue) : IsHeap h ↔ HeapFrom 0 h.length h := by
  unfold IsHeap HeapFrom
  exact ⟨fun H c hc _ => H c hc, fun H c hc => H c hc (Nat.zero_le _)⟩

theorem mem_iff_idx (h : Queue) (x : Item) : x ∈ h ↔ ∃ c, c < h.length ∧ h.idx c = x := by
  constructor
  · intro hx
    obtain ⟨c, hc, e⟩ := List.getElem_of_mem hx
    exact ⟨c, hc, by rw [Queue.idx_eq_getElem h c hc]; exact e⟩
  · rintro ⟨c, hc, e⟩
    rw [Queue.idx_eq_getElem h c hc] at e
    exact e ▸ List.getElem_mem hc

/-- In a heap the root is due no later than any slot. -/
theorem IsHeap.root_le {h : Queue} (H : IsHeap h) :
    ∀ c, c < h.length → (h.idx 0).When ≤ (h.idx c).When := by
  intro c
  induction c using Nat.strong_induction_on with
  | _ c ih =>
    intro hc
    by_cases h0 : c = 0
    · subst h0; exact le_refl _
    · have hp : (c - 1) / 2 < c := by omega
      exact le_trans (ih _ hp (by omega)) (H c hc)

theorem IsHeap.root_le_mem {h : Queue} (H : IsHeap h) (x : Item) (hx : x ∈ h) :
    (h.idx 0).When ≤ x.When := by
  obtain ⟨c, hc, e⟩ := (mem_iff_idx h x).1 hx
  exact e ▸ H.root_le c hc

theorem heap_InitLoop_spec (n : Nat) : ∀ (k : Nat) (h : Queue), n = h.length →
    HeapFrom k n h →
    (heap.InitLoop n k h).length = n ∧ (heap.InitLoop n k h).Perm h ∧
      HeapFrom 0 n (heap.InitLoop n k h) := by
  intro k
  induction k with
  | zero => intro h hn H; exact ⟨hn.symm, List.Perm.refl _, H⟩
  | succ k ih =>
    intro h hn H
    unfold heap.InitLoop
    obtain ⟨e1, e2, -⟩ := downLoop_frame (n - k) h k n (le_of_eq hn)
    have H1 : HeapFrom k n (heap.down h k n) := by
      apply downLoop_heap (n - k) h k k n (le_of_eq hn) (le_refl _) (le_refl _)
      · intro c hc hp hne
        exact H c hc (by omega)
      · intro c _ _ _ hlt
        exact absurd hlt (lt_irrefl _)
    obtain ⟨r1, r2, r3⟩ := ih (heap.down h k n) (by unfold heap.down; rw [e1]; exact hn) H1
    exact ⟨r1, r2.trans e2, r3⟩

theorem heap_Init_spec (h : Queue) :
    (heap.Init h).Perm h ∧ IsHeap (heap.Init h) := by
  have H0 : HeapFrom (h.length / 2) h.length h := by
    intro c hc hp
    have : c = 0 := by omega
    subst this; exact le_refl _
  obtain ⟨r1, r2, r3⟩ := heap_InitLoop_spec h.length (h.length / 2) h rfl H0
  refine ⟨r2, ?_⟩
  rw [IsHeap_iff_HeapFrom]
  unfold heap.Init Queue.Len
  rw [r1]
  exact r3

theorem idx_append_left (h : Queue) (x : Item) (c : Nat) (hc : c < h.length) :
    Queue.idx (h ++ [x]) c = h.idx c := by
  simp [Queue.idx, List.getD_eq_getElem?_getD, List.getElem?_append_left hc]

theorem heap_Push_spec (h : Queue) (x : Item) :
    (heap.Push h x).Perm (x :: h) ∧ (IsHeap h → IsHeap (heap.Push h x)) := by
  have hl : (h.Push x).length = h.length + 1 := by simp [Queue.Push]
  have hj : (h.Push x).Len - 1 < (h.Push x).length := by
    unfold Queue.Len; omega
  obtain ⟨-, e2⟩ := upLoop_frame ((h.Push x).Len - 1) (h.Push x) ((h.Push x).Len - 1) hj
  refine ⟨e2.trans ?_, ?_⟩
  · unfold Queue.Push
    exact List.perm_append_comm
  · intro H
    apply upLoop_heap _ (h.Push x) _ hj (le_refl _)
    · intro c hc hcj
      have hc2 : c < h.length := by
        unfold Queue.Len at hcj; omega
      unfold Queue.Push
      rw [idx_append_left h x c hc2, idx_append_left h x _ (by omega)]
      exact H c hc2
    · intro c hc hp hcj
      unfold Queue.Len at hp hcj
      omega

theorem Queue_Pop_spec (h : Queue) (n : Nat) (hn : h.length = n + 1) :
    h.Pop = some (h.idx n, h.take n) := by
  unfold Queue.Pop
  have hne : h ≠ [] := by
    intro e; rw [e] at hn; simp at hn
  have e1 : h.getLast? = some (h.idx n) := by
    rw [List.getLast?_eq_getLast _ hne, List.getLast_eq_getElem,
      Queue.idx_eq_getElem h n (by omega)]
    congr 2
    omega
  rw [e1]
  simp only [List.dropLast_eq_take, hn, Nat.add_sub_cancel]

theorem heap_Pop_eq_none (h : Queue) : heap.Pop h = none ↔ h = [] := by
  constructor
  · intro e
    by_contra hne
    have hl : 0 < h.length := List.length_pos.2 hne
    unfold heap.Pop Queue.Len at e
    rw [if_neg (by omega)] at e
    have hs : h.length - 1 ≤ (h.Swap 0 (h.length - 1)).length := by
      rw [Queue.length_Swap]; omega
    obtain ⟨e1, -, -⟩ := downLoop_frame (h.length - 1 - 0) (h.Swap 0 (h.length - 1)) 0
      (h.length - 1) hs
    have := Queue_Pop_spec (heap.down (h.Swap 0 (h.length - 1)) 0 (h.length - 1))
      (h.length - 1) (by unfold heap.down; rw [e1, Queue.length_Swap]; omega)
    rw [this] at e
    exact Option.noConfusion e
  · intro e; subst e; rfl

theorem idx_take (h : Queue) (n c : Nat) (hc : c < n) : Queue.idx (h.take n) c = h.idx c := by
  simp [Queue.idx, List.getD_eq_getElem?_getD, List.getElem?_take, hc]

theorem heap_Pop_spec (h q1 : Queue) (m : Item) (e : heap.Pop h = some (m, q1)) :
    m = h.idx 0 ∧ (m :: q1).Perm h ∧ q1.length + 1 = h.length ∧ (IsHeap h → IsHeap q1) := by
  have hne : h ≠ [] := by
    intro e0; rw [(heap_Pop_eq_none h).2 e0] at e; exact Option.noConfusion e
  have hl : 0 < h.length := List.length_pos.2 hne
  unfold heap.Pop Queue.Len at e
  rw [if_neg (by omega)] at e
  have hs : h.length - 1 ≤ (h.Swap 0 (h.length - 1)).length := by
    rw [Queue.length_Swap]; omega
  obtain ⟨e1, e2, e3⟩ := downLoop_frame (h.length - 1 - 0) (h.Swap 0 (h.length - 1)) 0
    (h.length - 1) hs
  have hlen : (heap.down (h.Swap 0 (h.length - 1)) 0 (h.length - 1)).length
      = h.length - 1 + 1 := by
    unfold heap.down; rw [e1, Queue.length_Swap]; omega
  rw [Queue_Pop_spec _ (h.length - 1) hlen] at e
  simp only [Option.some.injEq, Prod.mk.injEq] at e
  obtain ⟨em, eq1⟩ := e
  have hm : m = h.idx 0 := by
    rw [← em]
    unfold heap.down
    rw [e3 _ (le_refl _), Queue.idx_Swap h 0 _ _ hl (by omega)]
    simp
  refine ⟨hm, ?_, ?_, ?_⟩
  · have hd : heap.down (h.Swap 0 (h.length - 1)) 0 (h.length - 1) = q1 ++ [m] := by
      rw [← eq1, ← em]
      apply List.ext_getElem
      · simp [hlen]
      · intro k hk1 hk2
        by_cases hk : k < h.length - 1
        · rw [List.getElem_append_left (by simp; omega), List.getElem_take]
        · have hk3 : k = h.length - 1 := by omega
          subst hk3
          rw [List.getElem_append_right (by simp)]
          simp [Queue.idx_eq_getElem _ _ hk1]
    have : (q1 ++ [m]).Perm h := by
      rw [← hd]
      exact e2.trans (Queue.Swap_perm h 0 _ hl (by omega))
    exact (List.perm_append_comm.trans this)
  · rw [← eq1]; simp; omega
  · intro H
    have HF : HeapFrom 0 (h.length - 1)
        (heap.down (h.Swap 0 (h.length - 1)) 0 (h.length - 1)) := by
      apply downLoop_heap _ _ 0 0 _ hs (le_refl _) (le_refl _)
      · intro c hc _ hp
        rw [Queue.idx_Swap h 0 _ _ hl (by omega), Queue.idx_Swap h 0 _ _ hl (by omega)]
        have h1 : (c - 1) / 2 ≠ h.length - 1 := by omega
        have h2 : c ≠ h.length - 1 := by omega
        have h3 : c ≠ 0 := by omega
        simp only [h1, h2, h3, hp, if_false]
        exact H c (by omega)
      · intro c _ _ _ hlt
        exact absurd hlt (lt_irrefl _)
    intro c hc
    have hq : q1.length = h.length - 1 := by rw [← eq1]; simp; omega
    rw [hq] at hc
    rw [← eq1, idx_take _ _ _ hc, idx_take _ _ _ (by omega)]
    exact HF c hc (Nat.zero_le _)

theorem heap_Pop_le (h q1 : Queue) (m : Item) (e : heap.Pop h = some (m, q1)) (H : IsHeap h) :
    ∀ x ∈ h, m.When ≤ x.When := by
  intro x hx
  rw [(heap_Pop_spec h q1 m e).1]
  exact H.root_le_mem x hx

/-! ## The control loop: invariant -/

theorem Len_eq_zero (q : Queue) : q.Len = 0 ↔ q = [] := by
  unfold Queue.Len; exact List.length_eq_zero

theorem start_nil : start [] = { q := [], min := none, timer := Timer.sentinel } := by
  rfl

theorem start_spec (q : Queue) (hq : q ≠ []) :
    ∃ m q1, heap.Pop (heap.Init q) = some (m, q1) ∧
      start q = { q := q1, min := some m, timer := Timer.until m.When } := by
  obtain ⟨hp, -⟩ := heap_Init_spec q
  have hne : heap.Init q ≠ [] := fun e => hq (by rw [e] at hp; exact hp.symm.eq_nil)
  have hpos : 0 < (heap.Init q).length := List.length_pos.2 hne
  cases hpop : heap.Pop (heap.Init q) with
  | none => exact absurd ((heap_Pop_eq_none _).1 hpop) hne
  | some r =>
    obtain ⟨m, q1⟩ := r
    refine ⟨m, q1, rfl, ?_⟩
    unfold start
    simp only [hpos, if_true, hpop]

theorem held_start (q : Queue) : (held (start q)).Perm q := by
  by_cases hq : q = []
  · subst hq; rw [start_nil]; exact List.Perm.refl _
  · obtain ⟨m, q1, hpop, e⟩ := start_spec q hq
    rw [e]
    exact (heap_Pop_spec _ q1 m hpop).2.1.trans (heap_Init_spec q).1

theorem Inv_start (q : Queue) : Inv (start q) := by
  by_cases hq : q = []
  · subst hq; rw [start_nil]
    refine ⟨?_, ?_, fun _ => rfl⟩
    · intro c hc; simp at hc
    · intro m hm; simp at hm
  · obtain ⟨m, q1, hpop, e⟩ := start_spec q hq
    rw [e]
    have H := (heap_Init_spec q).2
    obtain ⟨-, hperm, -, hh⟩ := heap_Pop_spec _ q1 m hpop
    refine ⟨hh H, ?_, ?_⟩
    · intro m1 hm1 x hx
      simp only [Option.some.injEq] at hm1
      subst hm1
      exact heap_Pop_le _ q1 m hpop H x (hperm.subset (List.mem_cons_of_mem _ hx))
    · intro h; simp at h

theorem Inv_arm (q : Queue) (item : Item) (H : IsHeap q)
    (hle : ∀ x ∈ q, item.When ≤ x.When) : Inv (arm q item).1 := by
  refine ⟨H, ?_, ?_⟩
  · intro m hm x hx
    simp only [arm, Option.some.injEq] at hm
    subst hm
    exact hle x hx
  · intro h; simp [arm] at h

theorem Inv_onStage (s : State) (item : Item) (hs : Inv s) : Inv (onStage s item).1 := by
  obtain ⟨H, hmin, hnone⟩ := hs
  unfold onStage
  cases hm : s.min with
  | none =>
    simp only []
    apply Inv_arm _ _ H
    intro x hx
    rw [hnone hm] at hx
    simp at hx
  | some m =>
    simp only []
    have hle := hmin m hm
    obtain ⟨pm, hm2⟩ := heap_Push_spec s.q m
    obtain ⟨pi, hi2⟩ := heap_Push_spec s.q item
    by_cases h1 : item.When < m.When
    · rw [if_pos h1]
      apply Inv_arm _ _ (hm2 H)
      intro x hx
      rcases List.mem_cons.1 (pm.subset hx) with e | hx
      · subst e; omega
      · have := hle x hx; omega
    · rw [if_neg h1]
      by_cases h2 : item.When > m.When
      · rw [if_pos h2]
        refine ⟨hi2 H, ?_, ?_⟩
        · intro m1 hm1 x hx
          simp only [hm, Option.some.injEq] at hm1
          subst hm1
          rcases List.mem_cons.1 (pi.subset hx) with e | hx
          · subst e; omega
          · exact hle x hx
        · intro h; simp [hm] at h
      · rw [if_neg h2]
        apply Inv_arm _ _ H
        intro x hx
        have := hle x hx; omega

theorem onTimer_nil (s : State) (hq : s.q = []) :
    onTimer s = ({ s with min := none, timer := Timer.sentinel },
      s.min.toList.map (fun a => Effect.go (fireBody a)) ++ [Effect.reset Timer.sentinel]) := by
  unfold onTimer
  simp only [(Len_eq_zero s.q).2 hq, if_true]
  cases s.min <;> rfl

theorem onTimer_pop (s : State) (hq : s.q ≠ []) :
    ∃ m q1, heap.Pop s.q = some (m, q1) ∧
      onTimer s = ({ q := q1, min := some m, timer := Timer.until m.When },
        s.min.toList.map (fun a => Effect.go (fireBody a)) ++ [Effect.reset (Timer.until m.When)]) := by
  cases hpop : heap.Pop s.q with
  | none => exact absurd ((heap_Pop_eq_none _).1 hpop) hq
  | some r =>
    obtain ⟨m, q1⟩ := r
    refine ⟨m, q1, rfl, ?_⟩
    unfold onTimer
    have : ¬ s.q.Len = 0 := fun e => hq ((Len_eq_zero _).1 e)
    simp only [this, if_false, hpop]
    cases s.min <;> rfl

theorem Inv_onTimer (s : State) (hs : Inv s) : Inv (onTimer s).1 := by
  obtain ⟨H, -, -⟩ := hs
  by_cases hq : s.q = []
  · rw [onTimer_nil s hq]
    refine ⟨H, ?_, fun _ => hq⟩
    intro m hm; simp at hm
  · obtain ⟨m, q1, hpop, e⟩ := onTimer_pop s hq
    rw [e]
    obtain ⟨-, hperm, -, hh⟩ := heap_Pop_spec _ q1 m hpop
    refine ⟨hh H, ?_, ?_⟩
    · intro m1 hm1 x hx
      simp only [Option.some.injEq] at hm1
      subst hm1
      exact heap_Pop_le _ q1 m hpop H x (hperm.subset (List.mem_cons_of_mem _ hx))
    · intro h; simp at h

theorem Inv_step (s : State) (e : Event) (hs : Inv s) : Inv (step s e).1 := by
  cases e with
  | stage item => exact Inv_onStage s item hs
  | timerC => exact Inv_onTimer s hs

theorem Inv_run (evs : List Event) : ∀ s, Inv s → Inv (run s evs).1 := by
  induction evs with
  | nil => intro s hs; exact hs
  | cons e es ih => intro s hs; exact ih _ (Inv_step s e hs)

theorem run_append (es1 : List Event) : ∀ (s : State) (es2 : List Event),
    run s (es1 ++ es2) =
      ((run (run s es1).1 es2).1, (run s es1).2 ++ (run (run s es1).1 es2).2) := by
  induction es1 with
  | nil => intro s es2; simp [run]
  | cons e es ih =>
    intro s es2
    rw [List.cons_append]
    simp only [run]
    rw [ih]
    simp only [List.append_assoc]

/-! ## The control loop: what it issues and what it holds -/

theorem allCalls_append (es1 es2 : List Effect) :
    allCalls (es1 ++ es2) = allCalls es1 ++ allCalls es2 := by
  induction es1 with
  | nil => rfl
  | cons e es ih =>
    cases e <;> simp [allCalls, ih]

theorem reminds_append (es1 es2 : List Effect) :
    reminds (es1 ++ es2) = reminds es1 ++ reminds es2 := by
  simp [reminds, allCalls_append, List.filterMap_append]

theorem removes_append (es1 es2 : List Effect) :
    removes (es1 ++ es2) = removes es1 ++ removes es2 := by
  simp [removes, allCalls_append, List.filterMap_append]

theorem persists_append (es1 es2 : List Effect) :
    persists (es1 ++ es2) = persists es1 ++ persists es2 := by
  simp [persists, allCalls_append, List.filterMap_append]

theorem count_RemindFunc (l : List Call) (x : Item) :
    l.count (Call.RemindFunc x) = ((l.filterMap fun c => match c with
      | Call.RemindFunc y => some y
      | _ => none).count x) := by
  induction l with
  | nil => rfl
  | cons c t ih =>
    cases c <;> simp [List.filterMap_cons, List.count_cons, ih]

theorem count_RemoveFunc (l : List Call) (x : Item) :
    l.count (Call.RemoveFunc x) = ((l.filterMap fun c => match c with
      | Call.RemoveFunc y => some y
      | _ => none).count x) := by
  induction l with
  | nil => rfl
  | cons c t ih =>
    cases c <;> simp [List.filterMap_cons, List.count_cons, ih]

theorem count_PersistFunc (l : List Call) (x : Item) :
    l.count (Call.PersistFunc x) = ((l.filterMap fun c => match c with
      | Call.PersistFunc y => some y
      | _ => none).count x) := by
  induction l with
  | nil => rfl
  | cons c t ih =>
    cases c <;> simp [List.filterMap_cons, List.count_cons, ih]

/-- The effects of an insertion: nothing, or `PersistFunc` and `timer.Reset` for the item. -/
theorem onStage_effects (s : State) (x : Item) :
    (onStage s x).2 = [] ∨
      (onStage s x).2 = [Effect.call (Call.PersistFunc x), Effect.reset (Timer.until x.When)] := by
  unfold onStage
  cases s.min with
  | none => exact Or.inr rfl
  | some m =>
    simp only []
    split
    · exact Or.inr rfl
    · split
      · exact Or.inl rfl
      · exact Or.inr rfl

/-- The effects of a timer expiry: the goroutine for the armed item, if any, then `Reset`. -/
theorem onTimer_effects (s : State) :
    ∃ t, (onTimer s).2 = s.min.toList.map (fun a => Effect.go (fireBody a)) ++ [Effect.reset t] := by
  by_cases hq : s.q = []
  · exact ⟨_, by rw [onTimer_nil s hq]⟩
  · obtain ⟨m, q1, -, e⟩ := onTimer_pop s hq
    exact ⟨_, by rw [e]⟩

theorem reminds_onStage (s : State) (x : Item) : reminds (onStage s x).2 = [] := by
  rcases onStage_effects s x with e | e <;> rw [e] <;> rfl

theorem removes_onStage (s : State) (x : Item) : removes (onStage s x).2 = [] := by
  rcases onStage_effects s x with e | e <;> rw [e] <;> rfl

theorem reminds_onTimer (s : State) : reminds (onTimer s).2 = s.min.toList := by
  obtain ⟨t, e⟩ := onTimer_effects s
  rw [e]
  cases s.min <;> rfl

theorem removes_onTimer (s : State) : removes (onTimer s).2 = s.min.toList := by
  obtain ⟨t, e⟩ := onTimer_effects s
  rw [e]
  cases s.min <;> rfl

theorem persists_onTimer (s : State) : persists (onTimer s).2 = [] := by
  obtain ⟨t, e⟩ := onTimer_effects s
  rw [e]
  cases s.min <;> rfl

theorem held_onTimer (s : State) : (held (onTimer s).1).Perm s.q := by
  by_cases hq : s.q = []
  · rw [onTimer_nil s hq]; simp [held]
  · obtain ⟨m, q1, hpop, e⟩ := onTimer_pop s hq
    rw [e]
    exact (heap_Pop_spec _ q1 m hpop).2.1

theorem held_onStage (s : State) (x : Item) :
    (held (onStage s x).1).Subperm (x :: held s) := by
  unfold onStage
  cases hm : s.min with
  | none => simp only [arm, held, hm]; exact List.Subperm.refl _
  | some m =>
    simp only []
    split
    · simp only [arm, held, hm, Option.toList, List.singleton_append]
      exact (List.Perm.cons x (heap_Push_spec s.q m).1).subperm
    · split
      · simp only [held, hm, Option.toList, List.singleton_append]
        exact ((List.Perm.cons m (heap_Push_spec s.q x).1).trans (List.Perm.swap x m s.q)).subperm
      · simp only [arm, held, hm, Option.toList, List.singleton_append]
        exact (List.Sublist.cons₂ x (List.sublist_cons_self m s.q)).subperm

theorem staged_append (es1 es2 : List Event) : staged (es1 ++ es2) = staged es1 ++ staged es2 := by
  induction es1 with
  | nil => rfl
  | cons e es ih => cases e <;> simp [staged, ih]

/-- What has been fired and what is still held comes from what was held and what was staged,
each occurrence at most once. -/
theorem run_conserve (evs : List Event) : ∀ s,
    (reminds (run s evs).2 ++ held (run s evs).1).Subperm (held s ++ staged evs) := by
  induction evs with
  | nil =>
    intro s
    simp only [run, reminds, allCalls, staged, List.filterMap_nil, List.nil_append,
      List.append_nil]
    exact List.Subperm.refl _
  | cons e es ih =>
    intro s
    simp only [run, reminds_append, List.append_assoc]
    have h1 := ih (step s e).1
    have h2 : (reminds (step s e).2 ++ (held (step s e).1 ++ staged es)).Subperm
        (held s ++ staged (e :: es)) := by
      cases e with
      | stage x =>
        simp only [step, reminds_onStage, List.nil_append, staged]
        have := (List.subperm_append_right (staged es)).2 (held_onStage s x)
        refine this.trans (List.Perm.subperm ?_)
        simp only [List.cons_append]
        exact List.perm_middle.symm
      | timerC =>
        simp only [step, reminds_onTimer, staged, held]
        rw [← List.append_assoc]
        exact (List.Perm.append_right _ (List.Perm.append_left _ (held_onTimer s))).subperm
    exact ((List.subperm_append_left _).2 h1).trans h2

theorem removes_run (evs : List Event) : ∀ s, removes (run s evs).2 = reminds (run s evs).2 := by
  induction evs with
  | nil => intro s; rfl
  | cons e es ih =>
    intro s
    simp only [run, reminds_append, removes_append, ih]
    cases e with
    | stage x => simp only [step, reminds_onStage, removes_onStage]
    | timerC => simp only [step, reminds_onTimer, removes_onTimer]

theorem fireBody_inj (a x : Item) : fireBody a = fireBody x ↔ a = x := by
  simp [fireBody]

theorem count_go_run (evs : List Event) (x : Item) : ∀ s,
    (run s evs).2.count (Effect.go (fireBody x)) = (reminds (run s evs).2).count x := by
  induction evs with
  | nil => intro s; rfl
  | cons e es ih =>
    intro s
    simp only [run, reminds_append, List.count_append, ih]
    congr 1
    cases e with
    | stage y =>
      simp only [step, reminds_onStage]
      rcases onStage_effects s y with e | e <;> rw [e] <;> simp [List.count_cons]
    | timerC =>
      simp only [step, reminds_onTimer]
      obtain ⟨t, e⟩ := onTimer_effects s
      rw [e]
      cases s.min with
      | none => simp [List.count_cons]
      | some a => simp [List.count_cons, fireBody_inj]

theorem reminds_run_nodup (evs : List Event) (s : State)
    (hnd : (held s ++ staged evs).Nodup) : (reminds (run s evs).2).Nodup := by
  obtain ⟨l, hp, hs⟩ := (List.sublist_append_left _ _).subperm.trans (run_conserve evs s)
  exact hp.nodup_iff.1 (hs.nodup hnd)

theorem reminds_run_mem (evs : List Event) (s : State) (x : Item)
    (hx : x ∈ reminds (run s evs).2) : x ∈ held s ∨ x ∈ staged evs :=
  List.mem_append.1 ((run_conserve evs s).subset (List.mem_append_left _ hx))

/-! ## `Init` -/

theorem withIds_When (items : List Item) : ∀ id,
    (withIds id items).map Item.When = items.map Item.When := by
  induction items with
  | nil => intro id; rfl
  | cons x xs ih => intro id; simp only [withIds, List.map_cons, ih]

theorem withIds_Data (items : List Item) : ∀ id,
    (withIds id items).map Item.Data = items.map Item.Data := by
  induction items with
  | nil => intro id; rfl
  | cons x xs ih => intro id; simp only [withIds, List.map_cons, ih]

theorem take_succ_set (q : Queue) (i : Nat) (x : Item) (hi : i < q.length) :
    (q.set i x).take (i + 1) = q.take i ++ [x] := by
  induction q generalizing i with
  | nil => simp at hi
  | cons a t ih =>
    cases i with
    | zero => simp
    | succ i =>
      have hi2 : i < t.length := by simpa using hi
      simp only [List.set_cons_succ, List.take_succ_cons, List.cons_append, ih i hi2]

/-- The loop of `Init` writes the items, with their `Id`, into the slots from `i` on, calls
`PersistFunc` on each in order and leaves the counter where `Add` would. -/
theorem InitLoop_spec (items : List Item) : ∀ (id i : Nat) (q : Queue),
    q.length = i + items.length →
    InitLoop id i items q
      = ((Add id items).1, q.take i ++ withIds id items,
          (withIds id items).map (fun x => Effect.call (Call.PersistFunc x))) := by
  induction items with
  | nil =>
    intro id i q hq
    simp only [InitLoop, Add, withIds, List.map_nil, List.append_nil]
    rw [List.take_of_length_le (by simpa using le_of_eq hq)]
  | cons x xs ih =>
    intro id i q hq
    have hi : i < q.length := by rw [hq]; simp
    simp only [InitLoop, Add, withIds, List.map_cons]
    rw [ih (next id) (i + 1) (q.set i { x with Id := next id })
      (by rw [List.length_set, hq, List.length_cons]; omega)]
    simp only [take_succ_set q i _ hi, List.append_assoc, List.singleton_append]

/-- With at most 1024 items `Init` does not panic: it calls `PersistFunc` on every item in
argument order and starts the loop on the queue of these items. -/
theorem Init_of_le (id : Nat) (items : List Item) (h : items.length ≤ 1024) :
    Init id items = some ((Add id items).1, start (withIds id items),
      (withIds id items).map (fun x => Effect.call (Call.PersistFunc x))) := by
  unfold Init make
  rw [if_pos h]
  simp only []
  rw [InitLoop_spec items id 0 _ (by simp)]
  simp only [List.take_zero, List.nil_append]

/-- With more than 1024 items `Init` panics at `make`. -/
theorem Init_of_gt (id : Nat) (items : List Item) (h : 1024 < items.length) :
    Init id items = none := by
  unfold Init make
  rw [if_neg (by omega)]

theorem Init_eq_some (id : Nat) (items : List Item) (r : Nat × State × List Effect)
    (h : Init id items = some r) :
    items.length ≤ 1024 ∧ r = ((Add id items).1, start (withIds id items),
      (withIds id items).map (fun x => Effect.call (Call.PersistFunc x))) := by
  by_cases hl : items.length ≤ 1024
  · rw [Init_of_le id items hl] at h
    exact ⟨hl, (Option.some.inj h).symm⟩
  · rw [Init_of_gt id items (by omega)] at h
    exact Option.noConfusion h

theorem allCalls_map_call (l : List Call) :
    allCalls (l.map Effect.call) = l := by
  induction l with
  | nil => rfl
  | cons c t ih => simp only [List.map_cons, allCalls, ih]

theorem persists_map_Persist (l : List Item) :
    persists (l.map (fun x => Effect.call (Call.PersistFunc x))) = l := by
  induction l with
  | nil => rfl
  | cons c t ih =>
    simp only [persists, List.map_cons, allCalls, List.filterMap_cons] at ih ⊢
    rw [ih]

/-! ## Timer expiries only -/

theorem staged_replicate_timerC (k : Nat) : staged (List.replicate k Event.timerC) = [] := by
  induction k with
  | zero => rfl
  | succ k ih => simp only [List.replicate_succ, staged, ih]

/-- From a state satisfying the invariant, timer expiries dispatch in due-time order. -/
theorem reminds_sorted (k : Nat) : ∀ s, Inv s →
    ((reminds (run s (List.replicate k Event.timerC)).2).map Item.When).Pairwise (· ≤ ·) := by
  induction k with
  | zero => intro s _; simp [run, reminds, allCalls]
  | succ k ih =>
    intro s hs
    simp only [List.replicate_succ, run, step, reminds_append, reminds_onTimer, List.map_append]
    rw [List.pairwise_append]
    refine ⟨?_, ih _ (Inv_onTimer s hs), ?_⟩
    · cases s.min <;> simp
    · intro a ha b hb
      obtain ⟨x, hx, rfl⟩ := List.mem_map.1 ha
      obtain ⟨y, hy, rfl⟩ := List.mem_map.1 hb
      have hy2 := reminds_run_mem _ _ y hy
      rw [staged_replicate_timerC] at hy2
      have hy3 : y ∈ s.q := by
        rcases hy2 with h | h
        · exact (held_onTimer s).subset h
        · simp at h
      exact hs.2.1 x (by simpa using hx) y hy3

/-! ## Supporting facts for the claims -/

theorem mem_reminds (es : List Effect) (x : Item) :
    x ∈ reminds es ↔ Call.RemindFunc x ∈ allCalls es := by
  rw [← List.count_pos_iff, ← List.count_pos_iff, count_RemindFunc]
  rfl

theorem mem_removes (es : List Effect) (x : Item) :
    x ∈ removes es ↔ Call.RemoveFunc x ∈ allCalls es := by
  rw [← List.count_pos_iff, ← List.count_pos_iff, count_RemoveFunc]
  rfl

theorem held_run_mem (evs : List Event) (s : State) (x : Item)
    (hx : x ∈ held (run s evs).1) : x ∈ held s ∨ x ∈ staged evs :=
  List.mem_append.1 ((run_conserve evs s).subset (List.mem_append_right _ hx))

theorem fired_once (q : Queue) (evs : List Event) (x : Item)
    (hnd : (q ++ staged evs).Nodup) (hx : x ∈ reminds (run (start q) evs).2) :
    (reminds (run (start q) evs).2).count x = 1 := by
  have hnd2 : (held (start q) ++ staged evs).Nodup :=
    (List.Perm.append_right _ (held_start q)).nodup_iff.2 hnd
  exact List.count_eq_one_of_mem (reminds_run_nodup evs _ hnd2) hx

theorem onStage_tie (s : State) (a b : Item) (hmin : s.min = some a) (htie : b.When = a.When) :
    onStage s b = arm s.q b := by
  unfold onStage
  simp only [hmin, htie, lt_irrefl, gt_iff_lt, if_false]

theorem onStage_earlier (s : State) (a b : Item) (hmin : s.min = some a)
    (hlt : b.When < a.When) : onStage s b = arm (heap.Push s.q a) b := by
  unfold onStage
  simp only [hmin, hlt, if_true]

theorem onStage_later (s : State) (a b : Item) (hmin : s.min = some a)
    (hlt : a.When < b.When) : onStage s b = ({ s with q := heap.Push s.q b }, []) := by
  unfold onStage
  have h1 : ¬ b.When < a.When := by omega
  simp only [hmin, h1, gt_iff_lt, hlt, if_true, if_false]

theorem onStage_armed (s : State) (x : Item) (h : (onStage s x).1.min = some x) :
    (onStage s x).2 = [Effect.call (Call.PersistFunc x), Effect.reset (Timer.until x.When)] := by
  unfold onStage at h ⊢
  cases hm : s.min with
  | none => rfl
  | some m =>
    simp only [hm] at h ⊢
    by_cases h1 : x.When < m.When
    · simp only [h1, if_true]; rfl
    · by_cases h2 : x.When > m.When
      · simp only [h1, h2, if_true, if_false, hm, Option.some.injEq] at h
        subst h
        exact absurd h2 (lt_irrefl _)
      · simp only [h1, h2, if_false]; rfl

/-! ## Identifiers -/

theorem staged_Add (items : List Item) : ∀ id, staged (Add id items).2 = withIds id items := by
  induction items with
  | nil => intro id; rfl
  | cons x xs ih => intro id; simp only [Add, staged, withIds, ih]

theorem withIds_Id (items : List Item) : ∀ id,
    (withIds id items).map Item.Id
      = (List.range items.length).map (fun i => (id + 1 + i) % 2 ^ 32) := by
  induction items with
  | nil => intro id; rfl
  | cons x xs ih =>
    intro id
    simp only [withIds, List.map_cons, List.length_cons, List.range_succ_eq_map, ih,
      List.map_map]
    refine congrArg₂ List.cons ?_ (List.map_congr_left ?_)
    · simp [next]
    · intro i _
      simp only [Function.comp, next]
      omega

theorem Add_counter_mod (items : List Item) : ∀ id i,
    ((Add id items).1 + 1 + i) % 2 ^ 32 = (id + 1 + (items.length + i)) % 2 ^ 32 := by
  induction items with
  | nil => intro id i; simp [Add]
  | cons x xs ih =>
    intro id i
    simp only [Add, List.length_cons]
    rw [ih (next id) i]
    simp only [next]
    omega

/-- The identifiers issued from counter value `id` are `id + 1, id + 2, ...` modulo `2 ^ 32`. -/
theorem issued_eq (cs : List ApiCall) : ∀ id,
    issued id cs = (List.range (ApiCall.total cs)).map (fun i => (id + 1 + i) % 2 ^ 32) := by
  induction cs with
  | nil => intro id; rfl
  | cons c cs ih =>
    intro id
    cases c with
    | Init items =>
      by_cases hl : items.length ≤ 1024
      · simp only [issued, ApiCall.total, Init_of_le id items hl, if_pos hl,
          persists_map_Persist, withIds_Id, ih, List.range_add, List.map_append, List.map_map]
        congr 1
        apply List.map_congr_left
        intro i _
        simp only [Function.comp]
        exact Add_counter_mod items id i
      · simp only [issued, ApiCall.total, Init_of_gt id items (by omega), if_neg hl, ih,
          Nat.zero_add]
    | Add items =>
      simp only [issued, ApiCall.total, staged_Add, withIds_Id, ih,
        List.range_add, List.map_append, List.map_map]
      congr 1
      apply List.map_congr_left
      intro i _
      simp only [Function.comp]
      exact Add_counter_mod items id i

theorem issued_increasing (cs : List ApiCall) (h : ApiCall.total cs < 2 ^ 32) :
    (issued 0 cs).Pairwise (· < ·) := by
  rw [issued_eq, List.pairwise_map]
  refine List.Pairwise.imp_of_mem ?_ (List.pairwise_lt_range _)
  intro a b ha hb hab
  have ha2 := List.mem_range.1 ha
  have hb2 := List.mem_range.1 hb
  omega

theorem issued_getElem? (cs : List ApiCall) (id i : Nat) (hi : i < ApiCall.total cs) :
    (issued id cs)[i]? = some ((id + 1 + i) % 2 ^ 32) := by
  rw [issued_eq]
  simp [hi]

/-! ## Idle loop, frame and conservation -/

theorem onTimer_idle :
    onTimer { q := [], min := none, timer := Timer.sentinel }
      = ({ q := [], min := none, timer := Timer.sentinel }, [Effect.reset Timer.sentinel]) := by
  rfl

theorem run_idle (k : Nat) :
    run { q := [], min := none, timer := Timer.sentinel } (List.replicate k Event.timerC)
      = ({ q := [], min := none, timer := Timer.sentinel },
          List.replicate k (Effect.reset Timer.sentinel)) := by
  induction k with
  | zero => rfl
  | succ k ih =>
    simp only [List.replicate_succ, run, step, onTimer_idle, ih, List.singleton_append]

theorem allCalls_replicate_reset (k : Nat) (t : Timer) :
    allCalls (List.replicate k (Effect.reset t)) = [] := by
  induction k with
  | zero => rfl
  | succ k ih => simp only [List.replicate_succ, allCalls, ih]

theorem mem_persists (es : List Effect) (x : Item) :
    x ∈ persists es ↔ Call.PersistFunc x ∈ allCalls es := by
  rw [← List.count_pos_iff, ← List.count_pos_iff, count_PersistFunc]
  rfl

theorem persists_onStage (s : State) (x : Item) :
    persists (onStage s x).2 = [] ∨ persists (onStage s x).2 = [x] := by
  rcases onStage_effects s x with e | e
  · exact Or.inl (by rw [e]; rfl)
  · exact Or.inr (by rw [e]; rfl)

theorem persists_run_mem (evs : List Event) : ∀ (s : State) (x : Item),
    x ∈ persists (run s evs).2 → x ∈ staged evs := by
  induction evs with
  | nil => intro s x hx; simp [run, persists, allCalls] at hx
  | cons e es ih =>
    intro s x hx
    simp only [run, persists_append, List.mem_append] at hx
    cases e with
    | stage y =>
      simp only [staged, List.mem_cons]
      rcases hx with h | h
      · simp only [step] at h
        rcases persists_onStage s y with e | e
        · rw [e] at h; simp at h
        · rw [e] at h; exact Or.inl (by simpa using h)
      · exact Or.inr (ih _ x h)
    | timerC =>
      simp only [staged]
      rcases hx with h | h
      · simp only [step, persists_onTimer] at h; simp at h
      · exact ih _ x h

/-- Every handler call issued by the loop is made with an item the loop held or was sent. -/
theorem calls_run_mem (evs : List Event) (s : State) (c : Call)
    (hc : c ∈ allCalls (run s evs).2) : c.item ∈ held s ∨ c.item ∈ staged evs := by
  cases c with
  | PersistFunc x => exact Or.inr (persists_run_mem evs s x ((mem_persists _ x).2 hc))
  | RemoveFunc x =>
    have := (mem_removes _ x).2 hc
    rw [removes_run] at this
    exact reminds_run_mem evs s x this
  | RemindFunc x => exact reminds_run_mem evs s x ((mem_reminds _ x).2 hc)

theorem held_onStage_perm (s : State) (x : Item)
    (h : ∀ m, s.min = some m → x.When ≠ m.When) :
    (held (onStage s x).1).Perm (x :: held s) := by
  unfold onStage
  cases hm : s.min with
  | none => simp only [arm, held, hm]; exact List.Perm.refl _
  | some m =>
    simp only []
    have hne := h m hm
    by_cases h1 : x.When < m.When
    · rw [if_pos h1]
      simp only [arm, held, hm, Option.toList, List.singleton_append]
      exact List.Perm.cons x (heap_Push_spec s.q m).1
    · have h2 : x.When > m.When := by omega
      rw [if_neg h1, if_pos h2]
      simp only [held, hm, Option.toList, List.singleton_append]
      exact (List.Perm.cons m (heap_Push_spec s.q x).1).trans (List.Perm.swap x m s.q)

/-- Without ties nothing is lost: what has been fired and what is still held is exactly what
was held and what was staged. -/
theorem run_conserve_noTie (evs : List Event) : ∀ s, noTie s evs = true →
    (reminds (run s evs).2 ++ held (run s evs).1).Perm (held s ++ staged evs) := by
  induction evs with
  | nil =>
    intro s _
    simp only [run, reminds, allCalls, staged, List.filterMap_nil, List.nil_append,
      List.append_nil]
    exact List.Perm.refl _
  | cons e es ih =>
    intro s hnt
    simp only [run, reminds_append, List.append_assoc]
    cases e with
    | stage x =>
      simp only [noTie, Bool.and_eq_true] at hnt
      have h1 := ih (step s (Event.stage x)).1 hnt.2
      have hne : ∀ m, s.min = some m → x.When ≠ m.When := by
        intro m hm
        have := hnt.1
        rw [hm] at this
        simpa using this
      simp only [step, reminds_onStage, List.nil_append, staged] at h1 ⊢
      refine h1.trans ?_
      refine (List.Perm.append_right _ (held_onStage_perm s x hne)).trans ?_
      simp only [List.cons_append]
      exact List.perm_middle.symm
    | timerC =>
      simp only [noTie] at hnt
      have h1 := ih (step s Event.timerC).1 hnt
      simp only [step, reminds_onTimer, staged] at h1 ⊢
      refine (List.Perm.append_left _ h1).trans ?_
      rw [← List.append_assoc]
      refine List.Perm.append_right _ ?_
      simp only [held]
      exact List.Perm.append_left _ (held_onTimer s)

/-! ## Properties of the specification -/

/-- C1: whenever `Init` returns on a list of items (with pairwise distinct due times or not),
for every number of timer expiries received by the loop with no insertion in between, the
items handed to `RemindFunc`, in the order the loop dispatches them, have non-decreasing
`When`. -/
theorem C1_reminds_in_due_order (id : Nat) (items : List Item)
    (r : Nat × State × List Effect) (k : Nat) (hInit : Init id items = some r) :
    ((reminds (run r.2.1 (List.replicate k Event.timerC)).2).map
      Item.When).Pairwise (· ≤ ·) := by
  obtain ⟨-, rfl⟩ := Init_eq_some id items r hInit
  exact reminds_sorted k _ (Inv_start _)

/-- Witness of C1: `Init` with items due at 5, 3 and 9, then three timer expiries, which
dispatch the items due at 3, 5 and 9 in that order. -/
theorem C1_reminds_in_due_order_witness :
    Init 0 [Item.mk 0 5 0, Item.mk 0 3 0, Item.mk 0 9 0]
        = some (3, State.mk [Item.mk 1 5 0, Item.mk 3 9 0] (some (Item.mk 2 3 0))
            (Timer.until 3),
          [Effect.call (Call.PersistFunc (Item.mk 1 5 0)),
            Effect.call (Call.PersistFunc (Item.mk 2 3 0)),
            Effect.call (Call.PersistFunc (Item.mk 3 9 0))]) ∧
      (reminds (run (State.mk [Item.mk 1 5 0, Item.mk 3 9 0] (some (Item.mk 2 3 0))
          (Timer.until 3)) (List.replicate 3 Event.timerC)).2).map Item.When = [3, 5, 9] ∧
      ((reminds (run (3, State.mk [Item.mk 1 5 0, Item.mk 3 9 0] (some (Item.mk 2 3 0))
          (Timer.until 3),
          [Effect.call (Call.PersistFunc (Item.mk 1 5 0)),
            Effect.call (Call.PersistFunc (Item.mk 2 3 0)),
            Effect.call (Call.PersistFunc (Item.mk 3 9 0))]).2.1
          (List.replicate 3 Event.timerC)).2).map Item.When).Pairwise (· ≤ ·) :=
  ⟨by decide, by decide,
    C1_reminds_in_due_order 0 [Item.mk 0 5 0, Item.mk 0 3 0, Item.mk 0 9 0]
      (3, State.mk [Item.mk 1 5 0, Item.mk 3 9 0] (some (Item.mk 2 3 0)) (Timer.until 3),
        [Effect.call (Call.PersistFunc (Item.mk 1 5 0)),
          Effect.call (Call.PersistFunc (Item.mk 2 3 0)),
          Effect.call (Call.PersistFunc (Item.mk 3 9 0))])
      3 (by decide)⟩

/-- C2: in every state reached from a returning `Init` by any sequence of insertions and
timer expiries, the armed item, when there is one, is due no later than any item of the
pending queue. -/
theorem C2_armed_is_next_due (id : Nat) (items : List Item) (r : Nat × State × List Effect)
    (evs : List Event) (m x : Item) (hInit : Init id items = some r)
    (hm : (run r.2.1 evs).1.min = some m)
    (hx : x ∈ (run r.2.1 evs).1.q) : m.When ≤ x.When := by
  obtain ⟨-, rfl⟩ := Init_eq_some id items r hInit
  have hinv : Inv (run (start (withIds id items)) evs).1 := Inv_run evs _ (Inv_start _)
  exact hinv.2.1 m hm x hx

/-- Witness of C2: after `Init` with items due at 5 and 3 and the insertion of an item due
at 4, the armed item is the one due at 3 and the one due at 5 is pending. -/
theorem C2_armed_is_next_due_witness :
    Init 0 [Item.mk 0 5 0, Item.mk 0 3 0]
        = some (2, State.mk [Item.mk 1 5 0] (some (Item.mk 2 3 0)) (Timer.until 3),
          [Effect.call (Call.PersistFunc (Item.mk 1 5 0)),
            Effect.call (Call.PersistFunc (Item.mk 2 3 0))]) ∧
      (run (State.mk [Item.mk 1 5 0] (some (Item.mk 2 3 0)) (Timer.until 3))
        [Event.stage (Item.mk 3 4 0)]).1.min = some (Item.mk 2 3 0) ∧
      Item.mk 1 5 0 ∈ (run (State.mk [Item.mk 1 5 0] (some (Item.mk 2 3 0)) (Timer.until 3))
        [Event.stage (Item.mk 3 4 0)]).1.q ∧
      (Item.mk 2 3 0).When ≤ (Item.mk 1 5 0).When :=
  ⟨by decide, by decide, by decide,
    C2_armed_is_next_due 0 [Item.mk 0 5 0, Item.mk 0 3 0]
      (2, State.mk [Item.mk 1 5 0] (some (Item.mk 2 3 0)) (Timer.until 3),
        [Effect.call (Call.PersistFunc (Item.mk 1 5 0)),
          Effect.call (Call.PersistFunc (Item.mk 2 3 0))])
      [Event.stage (Item.mk 3 4 0)] (Item.mk 2 3 0) (Item.mk 1 5 0)
      (by decide) (by decide) (by decide)⟩

/-- C3: when the items given to the loop at start and those inserted later are pairwise
distinct, every item for which the loop dispatches `RemoveFunc` or `RemindFunc` gets each of
the two exactly once, both from one goroutine whose body calls `RemoveFunc` and then
`RemindFunc`. -/
theorem C3_fire_hooks_exactly_once (q : Queue) (evs : List Event) (x : Item)
    (hnd : (q ++ staged evs).Nodup)
    (hx : Call.RemoveFunc x ∈ allCalls (run (start q) evs).2 ∨
      Call.RemindFunc x ∈ allCalls (run (start q) evs).2) :
    (allCalls (run (start q) evs).2).count (Call.RemoveFunc x) = 1 ∧
      (allCalls (run (start q) evs).2).count (Call.RemindFunc x) = 1 ∧
      (run (start q) evs).2.count (Effect.go [Call.RemoveFunc x, Call.RemindFunc x]) = 1 := by
  have hmem : x ∈ reminds (run (start q) evs).2 := by
    rcases hx with h | h
    · rw [← removes_run]; exact (mem_removes _ x).2 h
    · exact (mem_reminds _ x).2 h
  have h1 := fired_once q evs x hnd hmem
  refine ⟨?_, ?_, ?_⟩
  · rw [count_RemoveFunc]
    have := removes_run evs (start q)
    unfold removes at this
    rw [this]; exact h1
  · rw [count_RemindFunc]; exact h1
  · have := count_go_run evs x (start q)
    unfold fireBody at this
    rw [this]; exact h1

/-- Witness of C3: three distinct items, one of them inserted, and two timer expiries. -/
theorem C3_fire_hooks_exactly_once_witness :
    ([Item.mk 1 5 0, Item.mk 2 3 0] ++
        staged [Event.timerC, Event.stage (Item.mk 3 4 0), Event.timerC]).Nodup ∧
      (allCalls (run (start [Item.mk 1 5 0, Item.mk 2 3 0])
          [Event.timerC, Event.stage (Item.mk 3 4 0), Event.timerC]).2).count
        (Call.RemoveFunc (Item.mk 3 4 0)) = 1 ∧
      (allCalls (run (start [Item.mk 1 5 0, Item.mk 2 3 0])
          [Event.timerC, Event.stage (Item.mk 3 4 0), Event.timerC]).2).count
        (Call.RemindFunc (Item.mk 3 4 0)) = 1 ∧
      (run (start [Item.mk 1 5 0, Item.mk 2 3 0])
          [Event.timerC, Event.stage (Item.mk 3 4 0), Event.timerC]).2.count
        (Effect.go [Call.RemoveFunc (Item.mk 3 4 0), Call.RemindFunc (Item.mk 3 4 0)]) = 1 :=
  ⟨by decide,
    C3_fire_hooks_exactly_once [Item.mk 1 5 0, Item.mk 2 3 0]
      [Event.timerC, Event.stage (Item.mk 3 4 0), Event.timerC] (Item.mk 3 4 0) (by decide)
      (Or.inl (by decide))⟩

/-- C4: the code at the failing input.  `Init` with one item due at 1 persists and arms it;
`Add` with an item due at 5 hands it to the loop, which queues it without `PersistFunc`; the
timer then expires, the first item is fired and the item due at 5 becomes the armed item by
promotion from the queue.  Over the whole run `PersistFunc` is invoked for the first item
only: never for the item due at 5, neither when it is inserted nor when it becomes armed. -/
theorem C4_promoted_item_never_persisted :
    Init 0 [Item.mk 0 1 0]
        = some (1, State.mk [] (some (Item.mk 1 1 0)) (Timer.until 1),
          [Effect.call (Call.PersistFunc (Item.mk 1 1 0))]) ∧
      Add 1 [Item.mk 0 5 0] = (2, [Event.stage (Item.mk 2 5 0)]) ∧
      run (State.mk [] (some (Item.mk 1 1 0)) (Timer.until 1))
          [Event.stage (Item.mk 2 5 0), Event.timerC]
        = (State.mk [] (some (Item.mk 2 5 0)) (Timer.until 5),
          [Effect.go [Call.RemoveFunc (Item.mk 1 1 0), Call.RemindFunc (Item.mk 1 1 0)],
            Effect.reset (Timer.until 5)]) ∧
      persists ([Effect.call (Call.PersistFunc (Item.mk 1 1 0))] ++
          (run (State.mk [] (some (Item.mk 1 1 0)) (Timer.until 1))
            [Event.stage (Item.mk 2 5 0), Event.timerC]).2) = [Item.mk 1 1 0] ∧
      (persists ([Effect.call (Call.PersistFunc (Item.mk 1 1 0))] ++
          (run (State.mk [] (some (Item.mk 1 1 0)) (Timer.until 1))
            [Event.stage (Item.mk 2 5 0), Event.timerC]).2)).count (Item.mk 2 5 0) = 0 := by
  decide

/-- C5: when item `b` is inserted while a different item `a` is armed (and not also pending)
and both are due at the same time, `b` becomes the armed item, the queue is unchanged, `a` is
neither armed nor pending, and in every continuation in which `a` is not inserted again `a`
stays out of the loop and `RemoveFunc` and `RemindFunc` are never invoked for it. -/
theorem C5_tie_drops_armed_item (s : State) (a b : Item) (evs : List Event)
    (hmin : s.min = some a) (htie : b.When = a.When) (hab : a ≠ b) (haq : a ∉ s.q)
    (hno : a ∉ staged evs) :
    (step s (Event.stage b)).1.min = some b ∧
      (step s (Event.stage b)).1.q = s.q ∧
      a ∉ held (step s (Event.stage b)).1 ∧
      a ∉ held (run (step s (Event.stage b)).1 evs).1 ∧
      Call.RemoveFunc a ∉ allCalls (run (step s (Event.stage b)).1 evs).2 ∧
      Call.RemindFunc a ∉ allCalls (run (step s (Event.stage b)).1 evs).2 := by
  have e : step s (Event.stage b) = arm s.q b := onStage_tie s a b hmin htie
  have hheld : a ∉ held (step s (Event.stage b)).1 := by
    rw [e]
    simp only [arm, held, Option.toList, List.singleton_append, List.mem_cons, not_or]
    exact ⟨hab, haq⟩
  have hrem : a ∉ reminds (run (step s (Event.stage b)).1 evs).2 := by
    intro h
    rcases reminds_run_mem evs _ a h with h1 | h1
    · exact hheld h1
    · exact hno h1
  refine ⟨by rw [e]; rfl, by rw [e]; rfl, hheld, ?_, ?_, ?_⟩
  · intro h
    rcases held_run_mem evs _ a h with h1 | h1
    · exact hheld h1
    · exact hno h1
  · intro h
    have := (mem_removes _ a).2 h
    rw [removes_run] at this
    exact hrem this
  · intro h
    exact hrem ((mem_reminds _ a).2 h)

/-- Witness of C5: the item due at 3 is armed, another item due at 3 is inserted, then a
later item is inserted and the timer expires three times. -/
theorem C5_tie_drops_armed_item_witness :
    (Item.mk 2 3 0).When = (Item.mk 1 3 0).When ∧
      (step (State.mk [Item.mk 4 9 0] (some (Item.mk 1 3 0)) (Timer.until 3))
        (Event.stage (Item.mk 2 3 0))).1.min = some (Item.mk 2 3 0) ∧
      (step (State.mk [Item.mk 4 9 0] (some (Item.mk 1 3 0)) (Timer.until 3))
        (Event.stage (Item.mk 2 3 0))).1.q = [Item.mk 4 9 0] ∧
      Item.mk 1 3 0 ∉ held (step (State.mk [Item.mk 4 9 0] (some (Item.mk 1 3 0))
        (Timer.until 3)) (Event.stage (Item.mk 2 3 0))).1 ∧
      Item.mk 1 3 0 ∉ held (run (step (State.mk [Item.mk 4 9 0] (some (Item.mk 1 3 0))
        (Timer.until 3)) (Event.stage (Item.mk 2 3 0))).1
        [Event.stage (Item.mk 3 7 0), Event.timerC, Event.timerC, Event.timerC]).1 ∧
      Call.RemoveFunc (Item.mk 1 3 0) ∉ allCalls (run (step (State.mk [Item.mk 4 9 0]
        (some (Item.mk 1 3 0)) (Timer.until 3)) (Event.stage (Item.mk 2 3 0))).1
        [Event.stage (Item.mk 3 7 0), Event.timerC, Event.timerC, Event.timerC]).2 ∧
      Call.RemindFunc (Item.mk 1 3 0) ∉ allCalls (run (step (State.mk [Item.mk 4 9 0]
        (some (Item.mk 1 3 0)) (Timer.until 3)) (Event.stage (Item.mk 2 3 0))).1
        [Event.stage (Item.mk 3 7 0), Event.timerC, Event.timerC, Event.timerC]).2 :=
  ⟨by decide,
    C5_tie_drops_armed_item (State.mk [Item.mk 4 9 0] (some (Item.mk 1 3 0)) (Timer.until 3))
      (Item.mk 1 3 0) (Item.mk 2 3 0)
      [Event.stage (Item.mk 3 7 0), Event.timerC, Event.timerC, Event.timerC]
      (by decide) (by decide) (by decide) (by decide) (by decide)⟩

/-- C6: when item `b` is inserted while item `a` is armed and `b` is due strictly earlier,
`b` becomes the armed item, the queue afterwards holds `a` together with exactly its previous
items, `PersistFunc` is invoked exactly once, with `b`, and the timer is reset for `b`. -/
theorem C6_earlier_insert_preempts (s : State) (a b : Item) (hmin : s.min = some a)
    (hlt : b.When < a.When) :
    (step s (Event.stage b)).1.min = some b ∧
      (step s (Event.stage b)).1.q.Perm (a :: s.q) ∧
      allCalls (step s (Event.stage b)).2 = [Call.PersistFunc b] ∧
      (step s (Event.stage b)).2
        = [Effect.call (Call.PersistFunc b), Effect.reset (Timer.until b.When)] ∧
      (step s (Event.stage b)).1.timer = Timer.until b.When := by
  have e : step s (Event.stage b) = arm (heap.Push s.q a) b := onStage_earlier s a b hmin hlt
  rw [e]
  exact ⟨rfl, (heap_Push_spec s.q a).1, rfl, rfl, rfl⟩

/-- Witness of C6: the item due at 5 is armed with one item pending, an item due at 3 is
inserted. -/
theorem C6_earlier_insert_preempts_witness :
    (Item.mk 2 3 0).When < (Item.mk 1 5 0).When ∧
      (step (State.mk [Item.mk 4 9 0] (some (Item.mk 1 5 0)) (Timer.until 5))
        (Event.stage (Item.mk 2 3 0))).1.min = some (Item.mk 2 3 0) ∧
      (step (State.mk [Item.mk 4 9 0] (some (Item.mk 1 5 0)) (Timer.until 5))
        (Event.stage (Item.mk 2 3 0))).1.q.Perm (Item.mk 1 5 0 :: [Item.mk 4 9 0]) ∧
      allCalls (step (State.mk [Item.mk 4 9 0] (some (Item.mk 1 5 0)) (Timer.until 5))
        (Event.stage (Item.mk 2 3 0))).2 = [Call.PersistFunc (Item.mk 2 3 0)] ∧
      (step (State.mk [Item.mk 4 9 0] (some (Item.mk 1 5 0)) (Timer.until 5))
        (Event.stage (Item.mk 2 3 0))).2
        = [Effect.call (Call.PersistFunc (Item.mk 2 3 0)),
            Effect.reset (Timer.until (Item.mk 2 3 0).When)] ∧
      (step (State.mk [Item.mk 4 9 0] (some (Item.mk 1 5 0)) (Timer.until 5))
        (Event.stage (Item.mk 2 3 0))).1.timer = Timer.until (Item.mk 2 3 0).When :=
  ⟨by decide,
    C6_earlier_insert_preempts (State.mk [Item.mk 4 9 0] (some (Item.mk 1 5 0)) (Timer.until 5))
      (Item.mk 1 5 0) (Item.mk 2 3 0) (by decide) (by decide)⟩

/-- C7: when item `b` is inserted while item `a` is armed and `b` is due strictly later, the
armed item is still `a`, the timer is untouched, the step issues nothing (no handler call, no
`timer.Reset`), and the queue afterwards holds `b` together with exactly its previous items. -/
theorem C7_later_insert_is_queued (s : State) (a b : Item) (hmin : s.min = some a)
    (hlt : a.When < b.When) :
    (step s (Event.stage b)).1.min = some a ∧
      (step s (Event.stage b)).1.timer = s.timer ∧
      (step s (Event.stage b)).2 = [] ∧
      (step s (Event.stage b)).1.q.Perm (b :: s.q) := by
  have e : step s (Event.stage b) = ({ s with q := heap.Push s.q b }, []) :=
    onStage_later s a b hmin hlt
  rw [e]
  exact ⟨hmin, rfl, rfl, (heap_Push_spec s.q b).1⟩

/-- Witness of C7: the item due at 3 is armed with one item pending, an item due at 5 is
inserted. -/
theorem C7_later_insert_is_queued_witness :
    (Item.mk 1 3 0).When < (Item.mk 2 5 0).When ∧
      (step (State.mk [Item.mk 4 9 0] (some (Item.mk 1 3 0)) (Timer.until 3))
        (Event.stage (Item.mk 2 5 0))).1.min = some (Item.mk 1 3 0) ∧
      (step (State.mk [Item.mk 4 9 0] (some (Item.mk 1 3 0)) (Timer.until 3))
        (Event.stage (Item.mk 2 5 0))).1.timer = Timer.until 3 ∧
      (step (State.mk [Item.mk 4 9 0] (some (Item.mk 1 3 0)) (Timer.until 3))
        (Event.stage (Item.mk 2 5 0))).2 = [] ∧
      (step (State.mk [Item.mk 4 9 0] (some (Item.mk 1 3 0)) (Timer.until 3))
        (Event.stage (Item.mk 2 5 0))).1.q.Perm (Item.mk 2 5 0 :: [Item.mk 4 9 0]) :=
  ⟨by decide,
    C7_later_insert_is_queued (State.mk [Item.mk 4 9 0] (some (Item.mk 1 3 0)) (Timer.until 3))
      (Item.mk 1 3 0) (Item.mk 2 5 0) (by decide) (by decide)⟩

/-- C8: in every state `s` of the loop (reached from `start` by any events) in which item
`a` is armed, a timer expiry dispatches one goroutine calling `RemoveFunc` then `RemindFunc`
for `a`; if the queue is empty the loop becomes idle with the sentinel timer, and otherwise an
item `m` of the queue that is due no later than any other is taken out of the queue, becomes
the armed item, and the timer is reset for its due time. -/
theorem C8_timer_expiry_while_armed (q0 : Queue) (evs : List Event) (s : State) (a : Item)
    (hr : s = (run (start q0) evs).1) (hmin : s.min = some a) :
    allCalls (step s Event.timerC).2 = [Call.RemoveFunc a, Call.RemindFunc a] ∧
      (s.q = [] →
        step s Event.timerC = ({ q := [], min := none, timer := Timer.sentinel },
          [Effect.go [Call.RemoveFunc a, Call.RemindFunc a], Effect.reset Timer.sentinel])) ∧
      (s.q ≠ [] → ∃ m, m ∈ s.q ∧ (∀ x ∈ s.q, m.When ≤ x.When) ∧
        (step s Event.timerC).1.min = some m ∧
        (m :: (step s Event.timerC).1.q).Perm s.q ∧
        (step s Event.timerC).1.timer = Timer.until m.When ∧
        (step s Event.timerC).2 = [Effect.go [Call.RemoveFunc a, Call.RemindFunc a],
          Effect.reset (Timer.until m.When)]) := by
  have hinv : Inv s := by rw [hr]; exact Inv_run evs _ (Inv_start q0)
  refine ⟨?_, ?_, ?_⟩
  · obtain ⟨t, e⟩ := onTimer_effects s
    simp only [step]
    rw [e, hmin]
    rfl
  · intro hq
    simp only [step]
    rw [onTimer_nil s hq, hmin, hq]
    rfl
  · intro hq
    obtain ⟨m, q1, hpop, e⟩ := onTimer_pop s hq
    obtain ⟨-, hperm, -, -⟩ := heap_Pop_spec _ q1 m hpop
    refine ⟨m, hperm.subset (List.mem_cons_self _ _), heap_Pop_le _ q1 m hpop hinv.1, ?_⟩
    simp only [step]
    rw [e, hmin]
    exact ⟨rfl, hperm, rfl, rfl⟩

/-- Witness of C8: started on items due at 5 and 3 and given an item due at 9, the loop has
the item due at 3 armed and the other two pending; the timer then expires. -/
theorem C8_timer_expiry_while_armed_witness :
    State.mk [Item.mk 1 5 0, Item.mk 3 9 0] (some (Item.mk 2 3 0)) (Timer.until 3)
        = (run (start [Item.mk 1 5 0, Item.mk 2 3 0]) [Event.stage (Item.mk 3 9 0)]).1 ∧
      allCalls (step (State.mk [Item.mk 1 5 0, Item.mk 3 9 0] (some (Item.mk 2 3 0))
        (Timer.until 3)) Event.timerC).2
        = [Call.RemoveFunc (Item.mk 2 3 0), Call.RemindFunc (Item.mk 2 3 0)] ∧
      (step (State.mk [Item.mk 1 5 0, Item.mk 3 9 0] (some (Item.mk 2 3 0))
        (Timer.until 3)) Event.timerC).1.min = some (Item.mk 1 5 0) :=
  ⟨by decide,
    (C8_timer_expiry_while_armed [Item.mk 1 5 0, Item.mk 2 3 0] [Event.stage (Item.mk 3 9 0)]
      (State.mk [Item.mk 1 5 0, Item.mk 3 9 0] (some (Item.mk 2 3 0)) (Timer.until 3))
      (Item.mk 2 3 0) (by decide) (by decide)).1,
    by decide⟩

/-- C10: when an item is inserted while no item is armed, it becomes the armed item whatever
its due time, the queue is unchanged, and the step issues exactly one `PersistFunc` call, with
that item, followed by a timer reset for its due time. -/
theorem C10_insert_while_idle (s : State) (x : Item) (hidle : s.min = none) :
    step s (Event.stage x)
        = ({ q := s.q, min := some x, timer := Timer.until x.When },
            [Effect.call (Call.PersistFunc x), Effect.reset (Timer.until x.When)]) ∧
      allCalls (step s (Event.stage x)).2 = [Call.PersistFunc x] := by
  have e : step s (Event.stage x) = arm s.q x := by
    simp only [step, onStage, hidle]
  rw [e]
  exact ⟨rfl, rfl⟩

/-- Witness of C10: the idle loop after `start` on no items receives an item due at 7. -/
theorem C10_insert_while_idle_witness :
    (start []).min = none ∧
      step (start []) (Event.stage (Item.mk 1 7 0))
        = ({ q := [], min := some (Item.mk 1 7 0), timer := Timer.until 7 },
            [Effect.call (Call.PersistFunc (Item.mk 1 7 0)), Effect.reset (Timer.until 7)]) ∧
      allCalls (step (start []) (Event.stage (Item.mk 1 7 0))).2
        = [Call.PersistFunc (Item.mk 1 7 0)] :=
  ⟨by decide, C10_insert_while_idle (start []) (Item.mk 1 7 0) (by decide)⟩

theorem total_replicate_Add (n : Nat) (items : List Item) :
    ApiCall.total (List.replicate n (ApiCall.Add items)) = n * items.length := by
  induction n with
  | zero => simp [ApiCall.total]
  | succ n ih =>
    simp only [List.replicate_succ, ApiCall.total, ih]
    rw [Nat.succ_mul, Nat.add_comm]

theorem total_Init_nil (cs : List ApiCall) :
    ApiCall.total (ApiCall.Init [] :: cs) = ApiCall.total cs := by
  simp [ApiCall.total]

theorem pairwise_range_apply (R : Nat → Nat → Prop) (n a b : Nat)
    (h : (List.range n).Pairwise R) (hab : a < b) (hb : b < n) : R a b := by
  have := (List.pairwise_iff_getElem.1 h) a b (by simp; omega) (by simpa using hb) hab
  simpa using this

/-- Counterexample to C11 as stated: after `Init()` and `2 ^ 32` calls `Add(item)`, the last
but one identifier returned by `next()` is `2 ^ 32 - 1` and the last one is `0`, so the series
of identifiers is not strictly increasing. -/
theorem C11_counterexample :
    (issued 0 (ApiCall.Init [] ::
        List.replicate (2 ^ 32) (ApiCall.Add [Item.mk 0 0 0])))[2 ^ 32 - 2]?
        = some (2 ^ 32 - 1) ∧
      (issued 0 (ApiCall.Init [] ::
        List.replicate (2 ^ 32) (ApiCall.Add [Item.mk 0 0 0])))[2 ^ 32 - 1]? = some 0 ∧
      ¬ (issued 0 (ApiCall.Init [] ::
        List.replicate (2 ^ 32) (ApiCall.Add [Item.mk 0 0 0]))).Pairwise (· < ·) := by
  have ht : ApiCall.total (ApiCall.Init [] ::
      List.replicate (2 ^ 32) (ApiCall.Add [Item.mk 0 0 0])) = 2 ^ 32 := by
    rw [total_Init_nil, total_replicate_Add, List.length_singleton, Nat.mul_one]
  refine ⟨?_, ?_, ?_⟩
  · rw [issued_getElem? _ 0 _ (by rw [ht]; omega)]
    rfl
  · rw [issued_getElem? _ 0 _ (by rw [ht]; omega)]
    rfl
  · rw [issued_eq, ht, List.pairwise_map]
    intro h
    have := pairwise_range_apply _ (2 ^ 32) (2 ^ 32 - 2) (2 ^ 32 - 1) h (by omega) (by omega)
    omega

/-- C11, amended: over any sequential series of `Init` and `Add` calls that hands over fewer
than `2 ^ 32` items in total, starting from counter value 0, the identifiers returned by
`next()` are strictly increasing in issuance order, hence pairwise distinct. -/
theorem C11_ids_increase_before_wrap (cs : List ApiCall) (h : ApiCall.total cs < 2 ^ 32) :
    (issued 0 cs).Pairwise (· < ·) ∧ (issued 0 cs).Nodup :=
  ⟨issued_increasing cs h, (issued_increasing cs h).imp (fun hab => Nat.ne_of_lt hab)⟩

/-- Witness of C11, amended: `Init` with two items, then `Add` with one and `Add` with two. -/
theorem C11_ids_increase_before_wrap_witness :
    ApiCall.total [ApiCall.Init [Item.mk 0 5 0, Item.mk 0 3 0], ApiCall.Add [Item.mk 0 4 0],
        ApiCall.Add [Item.mk 0 9 0, Item.mk 0 1 0]] < 2 ^ 32 ∧
      issued 0 [ApiCall.Init [Item.mk 0 5 0, Item.mk 0 3 0], ApiCall.Add [Item.mk 0 4 0],
        ApiCall.Add [Item.mk 0 9 0, Item.mk 0 1 0]] = [1, 2, 3, 4, 5] ∧
      ((issued 0 [ApiCall.Init [Item.mk 0 5 0, Item.mk 0 3 0], ApiCall.Add [Item.mk 0 4 0],
        ApiCall.Add [Item.mk 0 9 0, Item.mk 0 1 0]]).Pairwise (· < ·) ∧
       (issued 0 [ApiCall.Init [Item.mk 0 5 0, Item.mk 0 3 0], ApiCall.Add [Item.mk 0 4 0],
        ApiCall.Add [Item.mk 0 9 0, Item.mk 0 1 0]]).Nodup) :=
  ⟨by decide, by decide,
    C11_ids_increase_before_wrap [ApiCall.Init [Item.mk 0 5 0, Item.mk 0 3 0],
      ApiCall.Add [Item.mk 0 4 0], ApiCall.Add [Item.mk 0 9 0, Item.mk 0 1 0]] (by decide)⟩

/-- C12: `Init` with no items returns with the loop idle and has invoked no handler; then,
with no insertion, any number of timer expiries leaves the loop idle with an empty queue,
each expiry only resets the timer to the sentinel, and no handler (`PersistFunc`,
`RemoveFunc`, `RemindFunc`) is ever invoked. -/
theorem C12_idle_silence (id k : Nat) :
    ∃ r, Init id [] = some r ∧
      r.2.1 = { q := [], min := none, timer := Timer.sentinel } ∧
      run r.2.1 (List.replicate k Event.timerC)
        = ({ q := [], min := none, timer := Timer.sentinel },
            List.replicate k (Effect.reset Timer.sentinel)) ∧
      allCalls (r.2.2 ++ (run r.2.1 (List.replicate k Event.timerC)).2) = [] := by
  refine ⟨_, Init_of_le id [] (by simp), ?_, ?_, ?_⟩
  · simp only [withIds, start_nil]
  · simp only [withIds, start_nil, run_idle k]
  · simp only [withIds, start_nil, run_idle k, List.map_nil, List.nil_append]
    exact allCalls_replicate_reset k _

/-- C13: whenever `Init` returns, the items it handed to `PersistFunc` and started the loop
on have the `When` and the payload of the items given (only `Id` is written); the same holds
for the items `Add` sends on `stage`; `start` holds exactly the items of the queue it is
given; and after any events every item the loop holds and every item it hands to a handler
is, field for field, one of the items it held before or was sent on `stage`. -/
theorem C13_only_Id_is_written (id : Nat) (items : List Item) (q : Queue) (s : State)
    (evs : List Event) :
    (∀ r, Init id items = some r →
      (persists r.2.2).map Item.When = items.map Item.When ∧
      (persists r.2.2).map Item.Data = items.map Item.Data ∧
      r.2.1 = start (persists r.2.2)) ∧
    ((staged (Add id items).2).map Item.When = items.map Item.When ∧
      (staged (Add id items).2).map Item.Data = items.map Item.Data) ∧
    (held (start q)).Perm q ∧
    (∀ x ∈ held (run s evs).1, x ∈ held s ∨ x ∈ staged evs) ∧
    (∀ c ∈ allCalls (run s evs).2, c.item ∈ held s ∨ c.item ∈ staged evs) := by
  refine ⟨?_, ⟨?_, ?_⟩, held_start q, ?_, ?_⟩
  · intro r hr
    obtain ⟨-, rfl⟩ := Init_eq_some id items r hr
    refine ⟨?_, ?_, ?_⟩
    · simp only [persists_map_Persist]; exact withIds_When items id
    · simp only [persists_map_Persist]; exact withIds_Data items id
    · simp only [persists_map_Persist]
  · rw [staged_Add]; exact withIds_When items id
  · rw [staged_Add]; exact withIds_Data items id
  · intro x hx; exact held_run_mem evs s x hx
  · intro c hc; exact calls_run_mem evs s c hc

/-- Witness of C13: `Init` with items due at 5 and 3 returns, and the items it persisted and
started the loop on are due at 5 and 3, with the payloads given. -/
theorem C13_only_Id_is_written_witness :
    Init 0 [Item.mk 0 5 7, Item.mk 0 3 8]
        = some (2, State.mk [Item.mk 1 5 7] (some (Item.mk 2 3 8)) (Timer.until 3),
          [Effect.call (Call.PersistFunc (Item.mk 1 5 7)),
            Effect.call (Call.PersistFunc (Item.mk 2 3 8))]) ∧
      (persists [Effect.call (Call.PersistFunc (Item.mk 1 5 7)),
          Effect.call (Call.PersistFunc (Item.mk 2 3 8))]).map Item.When
        = [Item.mk 0 5 7, Item.mk 0 3 8].map Item.When ∧
      (persists [Effect.call (Call.PersistFunc (Item.mk 1 5 7)),
          Effect.call (Call.PersistFunc (Item.mk 2 3 8))]).map Item.Data
        = [Item.mk 0 5 7, Item.mk 0 3 8].map Item.Data :=
  ⟨by decide,
    ((C13_only_Id_is_written 0 [Item.mk 0 5 7, Item.mk 0 3 8] [] (start []) []).1
      (2, State.mk [Item.mk 1 5 7] (some (Item.mk 2 3 8)) (Timer.until 3),
        [Effect.call (Call.PersistFunc (Item.mk 1 5 7)),
          Effect.call (Call.PersistFunc (Item.mk 2 3 8))]) (by decide)).1,
    ((C13_only_Id_is_written 0 [Item.mk 0 5 7, Item.mk 0 3 8] [] (start []) []).1
      (2, State.mk [Item.mk 1 5 7] (some (Item.mk 2 3 8)) (Timer.until 3),
        [Effect.call (Call.PersistFunc (Item.mk 1 5 7)),
          Effect.call (Call.PersistFunc (Item.mk 2 3 8))]) (by decide)).2.1⟩

/-- C14: in every state reached from a returning `Init` by any sequence of insertions and
timer expiries, if no item is armed then the queue is empty; so an insertion in that state
arms the inserted item with nothing pending, and no pending item is due before it. -/
theorem C14_idle_means_empty_queue (id : Nat) (items : List Item)
    (r : Nat × State × List Effect) (evs : List Event) (hInit : Init id items = some r)
    (hidle : (run r.2.1 evs).1.min = none) :
    (run r.2.1 evs).1.q = [] ∧
      ∀ x, (step (run r.2.1 evs).1 (Event.stage x)).1.min = some x ∧
        (step (run r.2.1 evs).1 (Event.stage x)).1.q = [] ∧
        ∀ y ∈ (run r.2.1 evs).1.q, x.When ≤ y.When := by
  obtain ⟨-, rfl⟩ := Init_eq_some id items r hInit
  simp only [] at hidle ⊢
  have hinv : Inv (run (start (withIds id items)) evs).1 := Inv_run evs _ (Inv_start _)
  have hq := hinv.2.2 hidle
  refine ⟨hq, ?_⟩
  intro x
  have e : step (run (start (withIds id items)) evs).1 (Event.stage x)
      = arm (run (start (withIds id items)) evs).1.q x := by
    simp only [step, onStage, hidle]
  rw [e, hq]
  refine ⟨rfl, rfl, ?_⟩
  intro y hy
  simp at hy

/-- Witness of C14: after `Init` with one item, an insertion and two timer expiries, the
loop is idle. -/
theorem C14_idle_means_empty_queue_witness :
    Init 0 [Item.mk 0 5 0]
        = some (1, State.mk [] (some (Item.mk 1 5 0)) (Timer.until 5),
          [Effect.call (Call.PersistFunc (Item.mk 1 5 0))]) ∧
      (run (State.mk [] (some (Item.mk 1 5 0)) (Timer.until 5))
        [Event.stage (Item.mk 2 7 0), Event.timerC, Event.timerC]).1.min = none ∧
      (run (State.mk [] (some (Item.mk 1 5 0)) (Timer.until 5))
        [Event.stage (Item.mk 2 7 0), Event.timerC, Event.timerC]).1.q = [] :=
  ⟨by decide, by decide,
    (C14_idle_means_empty_queue 0 [Item.mk 0 5 0]
      (1, State.mk [] (some (Item.mk 1 5 0)) (Timer.until 5),
        [Effect.call (Call.PersistFunc (Item.mk 1 5 0))])
      [Event.stage (Item.mk 2 7 0), Event.timerC, Event.timerC] (by decide) (by decide)).1⟩

/-- C15: after a returning `Init`, over any sequence of insertions and timer expiries in
which no item is inserted while an item with the same due time is armed, the items fired so
far together with the armed item (if any) and the pending items are, as a multiset, exactly
the items given to `Init` together with the items inserted: none is lost and none is
duplicated. -/
theorem C15_conservation_without_ties (id : Nat) (items : List Item)
    (r : Nat × State × List Effect) (evs : List Event) (hInit : Init id items = some r)
    (hnt : noTie r.2.1 evs = true) :
    (reminds (run r.2.1 evs).2 ++
        ((run r.2.1 evs).1.min.toList ++ (run r.2.1 evs).1.q)).Perm
      (withIds id items ++ staged evs) := by
  obtain ⟨-, rfl⟩ := Init_eq_some id items r hInit
  have h := run_conserve_noTie evs (start (withIds id items)) hnt
  exact h.trans (List.Perm.append_right _ (held_start _))

/-- Witness of C15: `Init` with items due at 5 and 3, then a later and an earlier insertion
around a timer expiry, and one more expiry. -/
theorem C15_conservation_without_ties_witness :
    Init 0 [Item.mk 0 5 0, Item.mk 0 3 0]
        = some (2, State.mk [Item.mk 1 5 0] (some (Item.mk 2 3 0)) (Timer.until 3),
          [Effect.call (Call.PersistFunc (Item.mk 1 5 0)),
            Effect.call (Call.PersistFunc (Item.mk 2 3 0))]) ∧
      noTie (State.mk [Item.mk 1 5 0] (some (Item.mk 2 3 0)) (Timer.until 3))
        [Event.stage (Item.mk 3 9 0), Event.timerC, Event.stage (Item.mk 4 4 0), Event.timerC]
        = true ∧
      (reminds (run (State.mk [Item.mk 1 5 0] (some (Item.mk 2 3 0)) (Timer.until 3))
          [Event.stage (Item.mk 3 9 0), Event.timerC, Event.stage (Item.mk 4 4 0),
            Event.timerC]).2 ++
        ((run (State.mk [Item.mk 1 5 0] (some (Item.mk 2 3 0)) (Timer.until 3))
          [Event.stage (Item.mk 3 9 0), Event.timerC, Event.stage (Item.mk 4 4 0),
            Event.timerC]).1.min.toList ++
         (run (State.mk [Item.mk 1 5 0] (some (Item.mk 2 3 0)) (Timer.until 3))
          [Event.stage (Item.mk 3 9 0), Event.timerC, Event.stage (Item.mk 4 4 0),
            Event.timerC]).1.q)).Perm
        (withIds 0 [Item.mk 0 5 0, Item.mk 0 3 0] ++
          staged [Event.stage (Item.mk 3 9 0), Event.timerC, Event.stage (Item.mk 4 4 0),
            Event.timerC]) :=
  ⟨by decide, by decide,
    C15_conservation_without_ties 0 [Item.mk 0 5 0, Item.mk 0 3 0]
      (2, State.mk [Item.mk 1 5 0] (some (Item.mk 2 3 0)) (Timer.until 3),
        [Effect.call (Call.PersistFunc (Item.mk 1 5 0)),
          Effect.call (Call.PersistFunc (Item.mk 2 3 0))])
      [Event.stage (Item.mk 3 9 0), Event.timerC, Event.stage (Item.mk 4 4 0), Event.timerC]
      (by decide) (by decide)⟩

end Timing
